import Mathlib

/-!
# Verification of the `scan-util` scanning core

A shallow embedding of the repository's scanning runtime: UTF-8 aware string
slicing, tokenizer / whitespace / string-comparison policies, the `Cursor`
scan position, `ScanError` merging and the primitive-value scanners.

Rust strings are modelled as `List Char` (the sequence of Unicode code
points); byte offsets are tracked explicitly through `Char.utf8Size`.  A Rust
panic (an out-of-bounds or non-boundary slice) is modelled as `Except.error ()`;
`Option`/`Except` mirror the fallible signatures of the source.
-/

namespace ScanUtil

/-- Byte length of a string in its UTF-8 encoding (Rust `str::len`). -/
def utf8Len (s : List Char) : Nat :=
  (s.map Char.utf8Size).sum

theorem utf8Len_nil : utf8Len [] = 0 := rfl

theorem utf8Len_cons (c : Char) (s : List Char) :
    utf8Len (c :: s) = c.utf8Size + utf8Len s := by
  simp [utf8Len]

theorem utf8Len_append (a b : List Char) :
    utf8Len (a ++ b) = utf8Len a + utf8Len b := by
  simp [utf8Len]

theorem utf8Size_pos (c : Char) : 0 < c.utf8Size := by
  have := Char.utf8Size_pos c
  omega

theorem utf8Len_eq_zero {s : List Char} : utf8Len s = 0 ↔ s = [] := by
  cases s with
  | nil => simp [utf8Len]
  | cons c t =>
    simp only [utf8Len_cons]
    have := utf8Size_pos c
    constructor
    · intro h; omega
    · intro h; simp at h

theorem utf8Len_pos_of_ne_nil {s : List Char} (h : s ≠ []) : 0 < utf8Len s := by
  cases s with
  | nil => exact absurd rfl h
  | cons c t => have := utf8Size_pos c; simp [utf8Len_cons]; omega

/-- Drop the first `n` *bytes* of a string (Rust `str::slice_from`).
Returns `none` — a panic — when `n` does not land on a code-point boundary
or exceeds the length. -/
def dropBytes : List Char → Nat → Option (List Char)
  | s, 0 => some s
  | [], _ + 1 => none
  | c :: s, n + 1 =>
    if c.utf8Size ≤ n + 1 then dropBytes s (n + 1 - c.utf8Size) else none

/-- Take the first `n` *bytes* of a string (Rust `str::slice_to`).
Returns `none` — a panic — when `n` does not land on a code-point boundary
or exceeds the length. -/
def takeBytes : List Char → Nat → Option (List Char)
  | _, 0 => some []
  | [], _ + 1 => none
  | c :: s, n + 1 =>
    if c.utf8Size ≤ n + 1 then (takeBytes s (n + 1 - c.utf8Size)).map (c :: ·)
    else none

theorem dropBytes_cons_of_pos (c : Char) (s : List Char) {n : Nat} (h : 0 < n) :
    dropBytes (c :: s) n =
      if c.utf8Size ≤ n then dropBytes s (n - c.utf8Size) else none := by
  cases n with
  | zero => omega
  | succ m => rfl

theorem takeBytes_cons_of_pos (c : Char) (s : List Char) {n : Nat} (h : 0 < n) :
    takeBytes (c :: s) n =
      if c.utf8Size ≤ n then (takeBytes s (n - c.utf8Size)).map (c :: ·) else none := by
  cases n with
  | zero => omega
  | succ m => rfl

theorem dropBytes_append (pre suf : List Char) :
    dropBytes (pre ++ suf) (utf8Len pre) = some suf := by
  induction pre with
  | nil => simp [dropBytes, utf8Len_nil]
  | cons c rest ih =>
    have hc := utf8Size_pos c
    show dropBytes (c :: (rest ++ suf)) (utf8Len (c :: rest)) = some suf
    rw [utf8Len_cons, dropBytes_cons_of_pos _ _ (by omega), if_pos (by omega)]
    have h2 : c.utf8Size + utf8Len rest - c.utf8Size = utf8Len rest := by omega
    rw [h2, ih]

theorem dropBytes_eq_some {s t : List Char} {n : Nat} (h : dropBytes s n = some t) :
    ∃ pre, s = pre ++ t ∧ utf8Len pre = n := by
  induction s generalizing n with
  | nil =>
    cases n with
    | zero => injection h with h; exact ⟨[], by simp [← h], rfl⟩
    | succ m => simp [dropBytes] at h
  | cons c rest ih =>
    cases n with
    | zero =>
      injection h with h
      exact ⟨[], by simp [← h], rfl⟩
    | succ m =>
      simp only [dropBytes] at h
      by_cases hc : c.utf8Size ≤ m + 1
      · rw [if_pos hc] at h
        obtain ⟨pre, hpre, hlen⟩ := ih h
        refine ⟨c :: pre, by simp [hpre], ?_⟩
        rw [utf8Len_cons, hlen]
        omega
      · rw [if_neg hc] at h; exact absurd h (by simp)

theorem takeBytes_append (pre suf : List Char) :
    takeBytes (pre ++ suf) (utf8Len pre) = some pre := by
  induction pre with
  | nil => simp [takeBytes, utf8Len_nil]
  | cons c rest ih =>
    have hc := utf8Size_pos c
    show takeBytes (c :: (rest ++ suf)) (utf8Len (c :: rest)) = some (c :: rest)
    rw [utf8Len_cons, takeBytes_cons_of_pos _ _ (by omega), if_pos (by omega)]
    have h2 : c.utf8Size + utf8Len rest - c.utf8Size = utf8Len rest := by omega
    rw [h2, ih]
    rfl

theorem takeBytes_eq_some {s p : List Char} {n : Nat} (h : takeBytes s n = some p) :
    ∃ suf, s = p ++ suf ∧ utf8Len p = n := by
  induction s generalizing n p with
  | nil =>
    cases n with
    | zero =>
      injection h with h
      exact ⟨[], by simp [← h], by simp [← h, utf8Len]⟩
    | succ m => simp [takeBytes] at h
  | cons c rest ih =>
    cases n with
    | zero =>
      injection h with h
      exact ⟨c :: rest, by simp [← h], by simp [← h, utf8Len]⟩
    | succ m =>
      simp only [takeBytes] at h
      by_cases hc : c.utf8Size ≤ m + 1
      · rw [if_pos hc] at h
        cases htb : takeBytes rest (m + 1 - c.utf8Size) with
        | none => rw [htb] at h; simp at h
        | some q =>
          rw [htb] at h
          injection h with h
          obtain ⟨suf, hsuf, hlen⟩ := ih htb
          cases h
          exact ⟨suf, by simp [hsuf], by rw [utf8Len_cons, hlen]; omega⟩
      · rw [if_neg hc] at h; exact absurd h (by simp)

/-- `len_while` from `src/lib.rs`: the Rust source walks `char_indices`,
keeps the pairs whose code point satisfies `pred`, and maps the last one
`(i, ch)` to `char_range_at(i).next`, i.e. to the byte offset just past the
last satisfying code point.  That offset is exactly the UTF-8 byte length of
the maximal satisfying prefix, and the iterator is empty exactly when the
first code point already fails `pred`; hence this char-list form. -/
def lenWhile (s : List Char) (pred : Char → Bool) : Option Nat :=
  if (s.takeWhile pred).isEmpty then none else some (utf8Len (s.takeWhile pred))

theorem lenWhile_eq_some {s : List Char} {pred : Char → Bool} {n : Nat}
    (h : lenWhile s pred = some n) :
    s.takeWhile pred ≠ [] ∧ n = utf8Len (s.takeWhile pred) := by
  unfold lenWhile at h
  by_cases he : (s.takeWhile pred).isEmpty
  · rw [if_pos he] at h; exact absurd h (by simp)
  · rw [if_neg he] at h
    injection h with h
    exact ⟨by simpa [List.isEmpty_iff] using he, h.symm⟩

theorem lenWhile_pos {s : List Char} {pred : Char → Bool} {n : Nat}
    (h : lenWhile s pred = some n) : 0 < n := by
  obtain ⟨hne, hn⟩ := lenWhile_eq_some h
  rw [hn]
  exact utf8Len_pos_of_ne_nil hne

theorem takeWhile_dropWhile_nil (pred : Char → Bool) (s : List Char) :
    (s.dropWhile pred).takeWhile pred = [] := by
  induction s with
  | nil => simp
  | cons c rest ih =>
    by_cases hc : pred c
    · simpa [List.dropWhile, hc] using ih
    · simp [List.dropWhile, List.takeWhile, hc]

/-- The character classification and conversion tables the source pulls from
the Rust standard library.  They are parameters of the embedding: every
general theorem below holds for an arbitrary table, and concrete scenarios
use `stdTables`. -/
structure CharTables where
  isWhite : Char → Bool
  isAlpha : Char → Bool
  isDigitN : Char → Bool
  isXidStart : Char → Bool
  isXidCont : Char → Bool
  toLower : Char → Char

/-- Modelled from the spec: Rust `char::is_whitespace`, the Unicode
`White_Space` property.  This is the complete Unicode list. -/
def isWhiteStd (c : Char) : Bool :=
  let n := c.toNat
  (9 ≤ n && n ≤ 13) || n == 32 || n == 0x85 || n == 0xA0 || n == 0x1680 ||
    (0x2000 ≤ n && n ≤ 0x200A) || n == 0x2028 || n == 0x2029 || n == 0x202F ||
    n == 0x205F || n == 0x3000

/-- Modelled from the spec: Rust `char::to_lowercase` (the single-code-point
simple lowercase mapping).  Exact on ASCII, on the Greek capitals, on
U+0130 and on U+212A — the ranges exercised here; identity elsewhere, which
is also the Unicode default. -/
def toLowerStd (c : Char) : Char :=
  let n := c.toNat
  if 65 ≤ n && n ≤ 90 then Char.ofNat (n + 32)
  else if 0x391 ≤ n && n ≤ 0x3A9 && n != 0x3A2 then
    (if n == 0x3A3 then Char.ofNat 0x3C3 else Char.ofNat (n + 32))
  else if n == 0x212A then 'k'
  else if n == 0x130 then 'i'
  else c

/-- Modelled from the spec: the standard library tables, restricted where a
full Unicode table would be needed: `is_alphabetic`, `is_digit` (general
category `N*`) and the `XID` properties are taken on their ASCII
restrictions, which are exact for every code point the concrete scenarios
touch; `is_whitespace` and `to_lowercase` are as above. -/
def stdTables : CharTables where
  isWhite := isWhiteStd
  isAlpha := fun c => (65 ≤ c.toNat && c.toNat ≤ 90) || (97 ≤ c.toNat && c.toNat ≤ 122)
  isDigitN := fun c => 48 ≤ c.toNat && c.toNat ≤ 57
  isXidStart := fun c => (65 ≤ c.toNat && c.toNat ≤ 90) || (97 ≤ c.toNat && c.toNat ≤ 122)
  isXidCont := fun c =>
    (65 ≤ c.toNat && c.toNat ≤ 90) || (97 ≤ c.toNat && c.toNat ≤ 122) ||
      (48 ≤ c.toNat && c.toNat ≤ 57) || c.toNat == 95
  toLower := toLowerStd

/-- The `Tokenizer` implementations of `src/tokenizer.rs`. -/
inductive Tok where
  | wordsAndInts
  | identsAndInts
  | spaceDelimited
  | explicit
deriving DecidableEq

/-- The `Whitespace` implementations of `src/whitespace.rs`. -/
inductive Wsp where
  | ignore
  | explicitNewline
  | explicit
  | explicitAny
  | exact
deriving DecidableEq

/-- The `CompareStrs` implementations of `src/compare_strs.rs`. -/
inductive Cs where
  | exact
  | asciiCaseInsensitive
  | caseInsensitive
deriving DecidableEq

/-- `Tokenizer::token_len` for each implementation (`src/tokenizer.rs`).
The `s.len() == 0` guards become matches on `[]` (a UTF-8 string has zero
bytes iff it has no code points). -/
def tokTokenLen (T : CharTables) : Tok → List Char → Option Nat
  | .wordsAndInts, [] => none
  | .wordsAndInts, c0 :: rest =>
    if T.isAlpha c0 then lenWhile (c0 :: rest) T.isAlpha
    else if T.isDigitN c0 then lenWhile (c0 :: rest) T.isDigitN
    else none
  | .identsAndInts, [] => none
  | .identsAndInts, c0 :: rest =>
    if c0 == '_' || T.isXidStart c0 then lenWhile (c0 :: rest) T.isXidCont
    else if T.isDigitN c0 then lenWhile (c0 :: rest) T.isDigitN
    else none
  | .spaceDelimited, [] => none
  | .spaceDelimited, c0 :: rest => lenWhile (c0 :: rest) (fun c => !(T.isWhite c))
  | .explicit, [] => none
  | .explicit, c0 :: rest => some (utf8Len (c0 :: rest))

/-- `Whitespace::strip_len` for each implementation (`src/whitespace.rs`). -/
def wsStripLen (T : CharTables) : Wsp → List Char → Nat
  | .ignore, s => (lenWhile s T.isWhite).getD 0
  | .explicitNewline, s =>
    (lenWhile s (fun c => T.isWhite c && !(c == '\r' || c == '\n'))).getD 0
  | .explicit, _ => 0
  | .explicitAny, _ => 0
  | .exact, _ => 0

/-- `Whitespace::token_len` for each implementation (`src/whitespace.rs`).
`Ignore` uses the trait's default (`None`).  `Exact` computes
`s.slice_to(1)` / `s.slice_to(2)` on the *byte* level, so a leading
multi-byte whitespace code point makes `slice_to(1)` split its encoding:
a Rust panic, modelled as `Except.error ()`. -/
def wsTokenLen (T : CharTables) : Wsp → List Char → Except Unit (Option (Nat × List Char))
  | .ignore, _ => .ok none
  | .explicitNewline, s =>
    if List.isPrefixOf "\r\n".data s then .ok (some (2, "\n".data))
    else if List.isPrefixOf "\r".data s || List.isPrefixOf "\n".data s then
      .ok (some (1, "\n".data))
    else .ok none
  | .explicit, s =>
    if List.isPrefixOf "\r\n".data s then .ok (some (2, "\n".data))
    else if List.isPrefixOf "\r".data s || List.isPrefixOf "\n".data s then
      .ok (some (1, "\n".data))
    else
      .ok ((lenWhile s (fun c => T.isWhite c && !(c == '\r' || c == '\n'))).map
        (fun n => (n, " ".data)))
  | .explicitAny, s => .ok ((lenWhile s T.isWhite).map (fun n => (n, " ".data)))
  | .exact, [] => .ok none
  | .exact, c0 :: rest =>
    if !(T.isWhite c0) then .ok none
    else if List.isPrefixOf "\r\n".data (c0 :: rest) then
      match takeBytes (c0 :: rest) 2 with
      | some t => .ok (some (2, t))
      | none => .error ()
    else
      match takeBytes (c0 :: rest) 1 with
      | some t => .ok (some (1, t))
      | none => .error ()

/-- Rust `u8::to_ascii_lowercase`, lifted to the code point of an ASCII
character (modelled from the standard library). -/
def asciiLower (c : Char) : Char :=
  if 65 ≤ c.toNat && c.toNat ≤ 90 then Char.ofNat (c.toNat + 32) else c

/-- `CompareStrs::compare_strs` for each implementation
(`src/compare_strs.rs`).

* `exact`: `a == b`.
* `asciiCaseInsensitive`: Rust's byte-wise `eq_ignore_ascii_case`, stated
  code-point-wise; ASCII lowering never changes a byte's role in UTF-8, so
  byte-wise equality after lowering is equality of code-point counts plus
  pairwise equality after `asciiLower`.
* `caseInsensitive`: the source first compares `a.len() != b.len()` — the
  *byte* lengths — and then zips the code points, comparing single
  code-point `to_lowercase` images. -/
def compareStrs (T : CharTables) : Cs → List Char → List Char → Bool
  | .exact, a, b => a == b
  | .asciiCaseInsensitive, a, b =>
    a.length == b.length &&
      (a.zip b).all (fun pr => asciiLower pr.1 == asciiLower pr.2)
  | .caseInsensitive, a, b =>
    if utf8Len a != utf8Len b then false
    else (a.zip b).all (fun pr => T.toLower pr.1 == T.toLower pr.2)

/-- Lowercase hex rendering of `n`, zero-padded to width `w`. -/
def hexPad (w : Nat) (n : Nat) : List Char :=
  let ds := Nat.toDigits 16 n
  List.replicate (w - ds.length) '0' ++ ds

/-- Modelled from the spec: Rust `char::escape_default` as used when error
messages quote a token. -/
def escapeDefaultChar (c : Char) : List Char :=
  if c = '\t' then ['\\', 't']
  else if c = '\r' then ['\\', 'r']
  else if c = '\n' then ['\\', 'n']
  else if c = '\\' then ['\\', '\\']
  else if c = Char.ofNat 39 then ['\\', Char.ofNat 39]
  else if c = '"' then ['\\', '"']
  else if 0x20 ≤ c.toNat && c.toNat ≤ 0x7E then [c]
  else if c.toNat ≤ 0xFF then '\\' :: 'x' :: hexPad 2 c.toNat
  else if c.toNat ≤ 0xFFFF then '\\' :: 'u' :: hexPad 4 c.toNat
  else '\\' :: 'U' :: hexPad 8 c.toNat

/-- Rust `str::escape_default`: escape every code point. -/
def escStr (s : List Char) : List Char :=
  (s.map escapeDefaultChar).flatten

/-- `ScanError` from `src/scan_error.rs`.  The payload of the wrapped
`std::io::IoError` plays no role in the scanning core and is modelled
opaquely by a numeric tag. -/
inductive ScanError where
  | otherScanError : List Char → Nat → ScanError
  | scanIoError : Nat → ScanError
deriving DecidableEq

/-- `ScanError::or` (`src/scan_error.rs`): pick the "most interesting" of
two errors.  The Rust `match` tries `(ScanIoError(e), _) | (_, ScanIoError(e))`
first — so a left IO error wins over a right one — then compares offsets,
keeping the right error on ties. -/
def ScanError.or : ScanError → ScanError → ScanError
  | .scanIoError e, _ => .scanIoError e
  | .otherScanError _ _, .scanIoError e => .scanIoError e
  | .otherScanError msga offa, .otherScanError msgb offb =>
    if offa > offb then .otherScanError msga offa else .otherScanError msgb offb

/-- `true` iff the error is the wrapped-IO variant. -/
def ScanError.isIo : ScanError → Bool
  | .scanIoError _ => true
  | .otherScanError _ _ => false

/-- The byte offset of a text mismatch (the `uint` of `OtherScanError`);
`0` for the IO variant, which carries none. -/
def ScanError.off : ScanError → Nat
  | .otherScanError _ o => o
  | .scanIoError _ => 0

/-- The `Cursor` struct of `src/cursor.rs`: a shared input string, a byte
offset into it, and the three policy values. -/
structure Cursor where
  slice : List Char
  offset : Nat
  tc : Tok
  sp : Wsp
  cs : Cs
deriving DecidableEq

/-- `Cursor::new`: offset `0` over the whole input. -/
def Cursor.new (s : List Char) (tc : Tok) (sp : Wsp) (cs : Cs) : Cursor :=
  ⟨s, 0, tc, sp, cs⟩

/-- `ScanCursor::consumed`: the current byte offset. -/
def Cursor.consumed (c : Cursor) : Nat := c.offset

/-- `Cursor::tail_str`: `self.slice.slice_from(self.offset)`; panics
(`none`) off a code-point boundary. -/
def Cursor.tailStr (c : Cursor) : Option (List Char) :=
  dropBytes c.slice c.offset

/-- `Cursor::slice_from`: a successor cursor `from` bytes further along,
clamped to the input length.  Total, exactly like the source. -/
def Cursor.sliceFrom (c : Cursor) (fr : Nat) : Cursor :=
  { c with offset := min (utf8Len c.slice) (c.offset + fr) }

/-- `Cursor::str_slice_to`: `self.tail_str().slice_to(to)`. -/
def Cursor.strSliceTo (c : Cursor) (upTo : Nat) : Option (List Char) :=
  match c.tailStr with
  | none => none
  | some t => takeBytes t upTo

/-- `Cursor::str_slice_to_cur`: `self.slice.slice(self.offset, to.offset)`,
panicking unless both offsets are ascending code-point boundaries. -/
def Cursor.strSliceToCur (c other : Cursor) : Option (List Char) :=
  if c.offset ≤ other.offset then
    match dropBytes c.slice c.offset with
    | none => none
    | some t => takeBytes t (other.offset - c.offset)
  else none

/-- `Cursor::is_empty`: byte exhaustion, `offset == slice.len()`. -/
def Cursor.isEmpty (c : Cursor) : Bool :=
  c.offset == utf8Len c.slice

/-- `Cursor::compare_strs`: delegate to the cursor's comparator. -/
def Cursor.compareStrs (T : CharTables) (c : Cursor) (a b : List Char) : Bool :=
  ScanUtil.compareStrs T c.cs a b

/-- `Cursor::pop_ws`: `self.slice_from(self.sp.strip_len(self.tail_str()))`. -/
def Cursor.popWs (T : CharTables) (c : Cursor) : Except Unit Cursor :=
  match c.tailStr with
  | none => .error ()
  | some t => .ok (c.sliceFrom (wsStripLen T c.sp t))

/-- `Cursor::pop_token` (`src/cursor.rs` lines 193–228): strip whitespace,
try the whitespace policy's explicit token, then the tokenizer, then fall
back to a single code point, and finally report end of input. -/
def Cursor.popToken (T : CharTables) (c : Cursor) : Except Unit (Option (List Char × Cursor)) :=
  match c.popWs T with
  | .error e => .error e
  | .ok cur =>
    match cur.tailStr with
    | none => .error ()
    | some tws =>
      match wsTokenLen T c.sp tws with
      | .error e => .error e
      | .ok (some (n, s)) => .ok (some (s, cur.sliceFrom n))
      | .ok none =>
        match cur.tailStr with
        | none => .error ()
        | some tl =>
          match tokTokenLen T c.tc tl with
          | some n =>
            match cur.strSliceTo n with
            | none => .error ()
            | some tok => .ok (some (tok, cur.sliceFrom n))
          | none =>
            if cur.isEmpty then .ok none
            else
              match tl with
              | [] => .error ()
              | ch :: _ =>
                match cur.strSliceTo ch.utf8Size with
                | none => .error ()
                | some tok => .ok (some (tok, cur.sliceFrom ch.utf8Size))

/-- `ScanCursor::expected`: a text mismatch at the *current* offset whose
message quotes the next token (or "end of input").  Building the message
pops a token, so it inherits `pop_token`'s panic behaviour. -/
def Cursor.expected (T : CharTables) (c : Cursor) (desc : List Char) : Except Unit ScanError :=
  match c.popToken T with
  | .error e => .error e
  | .ok (some (got, _)) =>
    .ok (.otherScanError
      ("expected ".data ++ desc ++ ", got `".data ++ escStr got ++ "`".data) c.consumed)
  | .ok none =>
    .ok (.otherScanError ("expected ".data ++ desc ++ ", got end of input".data) c.consumed)

/-- `ScanCursor::expected_one_of`: quote and comma-join the expected tokens,
then report against the next token or end of input. -/
def Cursor.expectedOneOf (T : CharTables) (c : Cursor) (toks : List (List Char)) :
    Except Unit ScanError :=
  let fm := toks.map (fun s => "`".data ++ escStr s ++ "`".data)
  let joined : Option (List Char) :=
    match fm with
    | [] => none
    | f :: rest => some (rest.foldl (fun a b => a ++ ", ".data ++ b) f)
  match c.popToken T with
  | .error e => .error e
  | .ok r =>
    .ok (.otherScanError
      (match joined, r with
        | some exp, some (got, _) =>
          "expected ".data ++ exp ++ ", got `".data ++ escStr got ++ "`".data
        | some exp, none => "expected ".data ++ exp ++ ", got end of input".data
        | none, some (got, _) =>
          "expected end of input, got `".data ++ escStr got ++ "`".data
        | none, none => "expected end of input".data)
      c.consumed)

/-- `ScanCursor::expected_tok`: `expected_one_of` with a single token. -/
def Cursor.expectedTok (T : CharTables) (c : Cursor) (tok : List Char) : Except Unit ScanError :=
  c.expectedOneOf T [tok]

/-- `Cursor::expect_tok` (`src/cursor.rs` lines 181–187): pop a token; if it
compares equal to `s` under the cursor's comparator, succeed with the
successor, else fail with `expected_tok`. -/
def Cursor.expectTok (T : CharTables) (c : Cursor) (s : List Char) :
    Except Unit (Except ScanError Cursor) :=
  match c.popToken T with
  | .error e => .error e
  | .ok (some (tok, cur)) =>
    if c.compareStrs T s tok then .ok (.ok cur)
    else
      match c.expectedTok T s with
      | .error e => .error e
      | .ok err => .ok (.error err)
  | .ok none =>
    match c.expectedTok T s with
    | .error e => .error e
    | .ok err => .ok (.error err)

/-- `ScanCursor::expect_eof`: nil iff `pop_token` yields no token. -/
def Cursor.expectEof (T : CharTables) (c : Cursor) : Except Unit (Except ScanError Unit) :=
  match c.popToken T with
  | .error e => .error e
  | .ok (some _) =>
    match c.expectedOneOf T [] with
    | .error e => .error e
    | .ok err => .ok (.error err)
  | .ok none => .ok (.ok ())

/-- The states of the float mini-lexer in `scan_float`
(`src/scanner.rs` lines 122–165). -/
inductive FState where
  | start
  | whole
  | suffix
  | expStart
  | exponent
deriving DecidableEq

/-- Is `c` an ASCII decimal digit — the literal `'0'...'9'` ranges the
numeric mini-lexers match on. -/
def isDig (c : Char) : Bool :=
  decide ('0' ≤ c) && decide (c ≤ '9')

/-- The loop of `scan_float`: walk `char_indices` (here: the remaining code
points, with `i` the byte index of the next one), returning at the first
code point that cannot extend the literal; falling off the end returns the
whole length. -/
def scanFloatGo : FState → Nat → List Char → Option Nat
  | _, i, [] => some i
  | .start, i, c :: r =>
    if isDig c || c = '-' then scanFloatGo .whole (i + c.utf8Size) r else none
  | .whole, i, c :: r =>
    if isDig c then scanFloatGo .whole (i + c.utf8Size) r
    else if c = '.' then scanFloatGo .suffix (i + c.utf8Size) r
    else if c = 'e' || c = 'E' then scanFloatGo .expStart (i + c.utf8Size) r
    else some i
  | .suffix, i, c :: r =>
    if isDig c then scanFloatGo .suffix (i + c.utf8Size) r
    else if c = 'e' || c = 'E' then scanFloatGo .expStart (i + c.utf8Size) r
    else some i
  | .expStart, i, c :: r =>
    if c = '+' || c = '-' || isDig c then scanFloatGo .exponent (i + c.utf8Size) r
    else some i
  | .exponent, i, c :: r =>
    if isDig c then scanFloatGo .exponent (i + c.utf8Size) r
    else some i

/-- `scan_float` (`src/scanner.rs`): length of the float-literal prefix. -/
def scanFloat (s : List Char) : Option Nat :=
  scanFloatGo .start 0 s

/-- `scan_uint` (`src/scanner.rs` lines 172–177): `char_indices`, take while
ASCII digit, map the last hit to the offset past it — i.e. the byte length
of the maximal leading digit run, or `None` when there is none. -/
def scanUint (s : List Char) : Option Nat :=
  lenWhile s isDig

/-- `scan_int` (`src/scanner.rs` lines 184–194): strip an optional leading
`-` (one byte), scan the digits, and add the sign's byte back. -/
def scanInt (s : List Char) : Option Nat :=
  match s with
  | [] => none
  | c :: r =>
    if c = '-' then (scanUint r).map (fun n => n + 1)
    else (scanUint (c :: r)).map (fun n => n + 0)

/-- Digit-fold of an ASCII digit string; `none` unless nonempty and all
digits. -/
def digitsVal : List Char → Option Nat
  | [] => none
  | ds =>
    if ds.all isDig then some (ds.foldl (fun a c => a * 10 + (c.toNat - 48)) 0) else none

/-- Modelled from the spec: Rust `FromStr` for the signed fixed-width
integer of `bits` bits — an optional `-`, one or more decimal digits, and a
range check (the source's step-wise overflow check fails exactly when the
final value is out of range). -/
def parseSignedBits (bits : Nat) (s : List Char) : Option Int :=
  match s with
  | '-' :: r =>
    (digitsVal r).bind fun v =>
      if (v : Int) ≤ 2 ^ (bits - 1) then some (-(v : Int)) else none
  | _ =>
    (digitsVal s).bind fun v =>
      if (v : Int) < 2 ^ (bits - 1) then some (v : Int) else none

/-- Modelled from the spec: Rust `FromStr` for the unsigned fixed-width
integer of `bits` bits. -/
def parseUnsignedBits (bits : Nat) (s : List Char) : Option Nat :=
  (digitsVal s).bind fun v => if v < 2 ^ bits then some v else none

/-- The body the `from_str_slice_scanner!` macro expands to
(`src/scanner.rs` lines 18–38): run the mini-lexer on the tail, slice that
many bytes, advance, and convert with the type's own parser; both the
no-match and the failed-conversion paths return `cursor.expected(name)`. -/
def fromStrSliceScan {α : Type} (T : CharTables) (scanFn : List Char → Option Nat)
    (parse : List Char → Option α) (nm : List Char) (c : Cursor) :
    Except Unit (Except ScanError (α × Cursor)) :=
  match c.tailStr with
  | none => .error ()
  | some t =>
    match scanFn t with
    | none =>
      match c.expected T nm with
      | .error e => .error e
      | .ok err => .ok (.error err)
    | some n =>
      match c.strSliceTo n with
      | none => .error ()
      | some s =>
        match parse s with
        | some v => .ok (.ok (v, c.sliceFrom n))
        | none =>
          match c.expected T nm with
          | .error e => .error e
          | .ok err => .ok (.error err)

/-- The error-message names of the signed fixed-width scanners
(`"8-bit integer"` … `"64-bit integer"`). -/
def intName (bits : Nat) : List Char :=
  (Nat.toDigits 10 bits) ++ "-bit integer".data

/-- The error-message names of the unsigned fixed-width scanners. -/
def uintName (bits : Nat) : List Char :=
  (Nat.toDigits 10 bits) ++ "-bit unsigned integer".data

/-- The `Scanner` impls for `i8`/`i16`/`i32`/`i64`, as one `bits`-indexed
family (`from_str_slice_scanner! { scan_int -> iN as "N-bit integer" }`). -/
def scanFixedInt (T : CharTables) (bits : Nat) (c : Cursor) :
    Except Unit (Except ScanError (Int × Cursor)) :=
  fromStrSliceScan T scanInt (parseSignedBits bits) (intName bits) c

/-- The `Scanner` impls for `u8`/`u16`/`u32`/`u64`, as one `bits`-indexed
family (`from_str_slice_scanner! { scan_uint -> uN as "N-bit unsigned integer" }`). -/
def scanFixedUint (T : CharTables) (bits : Nat) (c : Cursor) :
    Except Unit (Except ScanError (Nat × Cursor)) :=
  fromStrSliceScan T scanUint (parseUnsignedBits bits) (uintName bits) c

/-- The `Scanner` impl for `bool` (`src/scanner.rs` lines 55–61): try
`expect_tok("true")`, then `expect_tok("false")`, else
`expected("`true` or `false`")`. -/
def boolScan (T : CharTables) (c : Cursor) : Except Unit (Except ScanError (Bool × Cursor)) :=
  match c.expectTok T "true".data with
  | .error e => .error e
  | .ok (.ok cur) => .ok (.ok (true, cur))
  | .ok (.error _) =>
    match c.expectTok T "false".data with
    | .error e => .error e
    | .ok (.ok cur) => .ok (.ok (false, cur))
    | .ok (.error _) =>
      match c.expected T "`true` or `false`".data with
      | .error e => .error e
      | .ok err => .ok (.error err)

/-- The `Scanner` impl for `char` (`src/scanner.rs` lines 63–73): the first
code point of the tail, advancing past it; fails on empty input. -/
def charScan (T : CharTables) (c : Cursor) : Except Unit (Except ScanError (Char × Cursor)) :=
  match c.tailStr with
  | none => .error ()
  | some [] =>
    match c.expected T "character".data with
    | .error e => .error e
    | .ok err => .ok (.error err)
  | some (ch :: _) => .ok (.ok (ch, c.sliceFrom ch.utf8Size))

/-- The `Scanner` impls for `&str` and `String` (`src/scanner.rs` lines
75–88): exactly the next popped token; fails naming "any token" at end of
input. -/
def strScan (T : CharTables) (c : Cursor) :
    Except Unit (Except ScanError (List Char × Cursor)) :=
  match c.popToken T with
  | .error e => .error e
  | .ok (some (s, cur)) => .ok (.ok (s, cur))
  | .ok none =>
    match c.expected T "any token".data with
    | .error e => .error e
    | .ok err => .ok (.error err)

/-- The `Scanner` impl for `()` (`src/scanner.rs` lines 90–94): always
succeeds, consuming nothing. -/
def unitScan (c : Cursor) : Except Unit (Except ScanError (Unit × Cursor)) :=
  .ok (.ok ((), c))

/-! ## Supporting lemmas -/

/-- The predicate whose maximal prefix `strip_len` measures: the policy's
skippable whitespace (`false` everywhere for the non-stripping policies). -/
def wsStripPred (T : CharTables) : Wsp → Char → Bool
  | .ignore => T.isWhite
  | .explicitNewline => fun c => T.isWhite c && !(c == '\r' || c == '\n')
  | .explicit => fun _ => false
  | .explicitAny => fun _ => false
  | .exact => fun _ => false

theorem takeWhile_const_false (s : List Char) :
    s.takeWhile (fun _ => false) = [] := by
  cases s <;> simp [List.takeWhile]

theorem getD_lenWhile (s : List Char) (pred : Char → Bool) :
    (lenWhile s pred).getD 0 = utf8Len (s.takeWhile pred) := by
  unfold lenWhile
  by_cases he : (s.takeWhile pred).isEmpty
  · rw [if_pos he]
    have h0 : s.takeWhile pred = [] := List.isEmpty_iff.mp he
    simp [h0, utf8Len_nil]
  · rw [if_neg he]
    rfl

theorem wsStripLen_eq (T : CharTables) (sp : Wsp) (t : List Char) :
    wsStripLen T sp t = utf8Len (t.takeWhile (wsStripPred T sp)) := by
  cases sp with
  | ignore => exact getD_lenWhile t _
  | explicitNewline => exact getD_lenWhile t _
  | explicit => rw [show wsStripPred T .explicit = fun _ => false from rfl,
      takeWhile_const_false]; rfl
  | explicitAny => rw [show wsStripPred T .explicitAny = fun _ => false from rfl,
      takeWhile_const_false]; rfl
  | exact => rw [show wsStripPred T .exact = fun _ => false from rfl,
      takeWhile_const_false]; rfl

theorem tailStr_eq_some {c : Cursor} {t : List Char} :
    c.tailStr = some t ↔ ∃ pre, c.slice = pre ++ t ∧ utf8Len pre = c.offset := by
  constructor
  · intro h
    obtain ⟨pre, h1, h2⟩ := dropBytes_eq_some h
    exact ⟨pre, h1, h2⟩
  · rintro ⟨pre, h1, h2⟩
    unfold Cursor.tailStr
    rw [h1, ← h2, dropBytes_append]

theorem lenWhile_decomp {s : List Char} {pred : Char → Bool} {n : Nat}
    (h : lenWhile s pred = some n) :
    1 ≤ n ∧ s = s.takeWhile pred ++ s.dropWhile pred ∧ utf8Len (s.takeWhile pred) = n := by
  obtain ⟨hne, hn⟩ := lenWhile_eq_some h
  exact ⟨lenWhile_pos h, (List.takeWhile_append_dropWhile _ _).symm, hn.symm⟩

theorem offset_le_of_tailStr {c : Cursor} {t : List Char} (h : c.tailStr = some t) :
    c.offset ≤ utf8Len c.slice := by
  obtain ⟨pre, h1, h2⟩ := tailStr_eq_some.mp h
  rw [h1, utf8Len_append, ← h2]
  omega

theorem sliceFrom_zero_of_le {c : Cursor} (h : c.offset ≤ utf8Len c.slice) :
    c.sliceFrom 0 = c := by
  unfold Cursor.sliceFrom
  cases c with
  | mk slice off tc sp cs =>
    simp only at h ⊢
    congr 1
    omega

theorem sliceFrom_fields (c : Cursor) (n : Nat) :
    (c.sliceFrom n).slice = c.slice ∧ (c.sliceFrom n).tc = c.tc ∧
      (c.sliceFrom n).sp = c.sp ∧ (c.sliceFrom n).cs = c.cs := by
  unfold Cursor.sliceFrom
  exact ⟨rfl, rfl, rfl, rfl⟩

theorem sliceFrom_offset_of_le {c : Cursor} {n : Nat}
    (h : c.offset + n ≤ utf8Len c.slice) :
    (c.sliceFrom n).offset = c.offset + n := by
  unfold Cursor.sliceFrom
  simp only
  omega

/-- Advancing from a boundary by a boundary length of the tail stays on a
boundary and yields the matching tail. -/
theorem sliceFrom_tailStr {c : Cursor} {t pre suf : List Char}
    (ht : c.tailStr = some t) (hsplit : t = pre ++ suf) :
    (c.sliceFrom (utf8Len pre)).offset = c.offset + utf8Len pre ∧
      (c.sliceFrom (utf8Len pre)).tailStr = some suf := by
  obtain ⟨pre0, h1, h2⟩ := tailStr_eq_some.mp ht
  have hslice : c.slice = (pre0 ++ pre) ++ suf := by rw [h1, hsplit]; simp
  have hlen : utf8Len c.slice = c.offset + utf8Len pre + utf8Len suf := by
    rw [hslice, utf8Len_append, utf8Len_append, ← h2]
  have hoff : (c.sliceFrom (utf8Len pre)).offset = c.offset + utf8Len pre := by
    apply sliceFrom_offset_of_le
    omega
  refine ⟨hoff, ?_⟩
  rw [show (c.sliceFrom (utf8Len pre)).tailStr
        = dropBytes c.slice (c.offset + utf8Len pre) from by
      unfold Cursor.tailStr
      rw [(sliceFrom_fields c (utf8Len pre)).1, hoff]]
  rw [hslice, show c.offset + utf8Len pre = utf8Len (pre0 ++ pre) from by
    rw [utf8Len_append, h2]]
  exact dropBytes_append _ _

/-- The `pop_ws` successor: always defined on a boundary cursor, advancing
past the policy's maximal skippable-whitespace prefix. -/
theorem popWs_ok {T : CharTables} {c : Cursor} {t : List Char} (ht : c.tailStr = some t) :
    c.popWs T = .ok (c.sliceFrom (wsStripLen T c.sp t)) := by
  unfold Cursor.popWs
  rw [ht]

/-- Claim C9: `pop_ws` is idempotent under every whitespace policy the
library provides: `pop_ws(pop_ws(p)) == pop_ws(p)` for every position `p`.
Stated as Kleisli composition so it also covers off-boundary cursors, whose
`pop_ws` panic is absorbed by `bind`. -/
theorem claimC9_pop_ws_idempotent (T : CharTables) (c : Cursor) :
    (c.popWs T).bind (fun q => q.popWs T) = c.popWs T := by
  cases ht : c.tailStr with
  | none =>
    unfold Cursor.popWs
    rw [ht]
    rfl
  | some t =>
    rw [popWs_ok ht]
    show (Cursor.sliceFrom c (wsStripLen T c.sp t)).popWs T
        = .ok (c.sliceFrom (wsStripLen T c.sp t))
    set q := c.sliceFrom (wsStripLen T c.sp t) with hq
    have hsplit : t = t.takeWhile (wsStripPred T c.sp) ++ t.dropWhile (wsStripPred T c.sp) :=
      (List.takeWhile_append_dropWhile _ _).symm
    have hstrip := wsStripLen_eq T c.sp t
    have htail : q.tailStr = some (t.dropWhile (wsStripPred T c.sp)) := by
      rw [hq, hstrip]
      exact (sliceFrom_tailStr ht hsplit).2
    rw [popWs_ok htail]
    have hsp : q.sp = c.sp := (sliceFrom_fields c _).2.2.1
    have hzero : wsStripLen T q.sp (t.dropWhile (wsStripPred T c.sp)) = 0 := by
      rw [hsp, wsStripLen_eq, takeWhile_dropWhile_nil, utf8Len_nil]
    rw [hzero]
    have hle : q.offset ≤ utf8Len q.slice := by
      unfold Cursor.sliceFrom at hq
      rw [hq]
      simp only
      omega
    rw [sliceFrom_zero_of_le hle]

/-- View of `Except` as a sum, for deciding equality. -/
def exceptToSum {ε α : Type} : Except ε α → ε ⊕ α
  | .error e => .inl e
  | .ok a => .inr a

instance {ε α : Type} [DecidableEq ε] [DecidableEq α] : DecidableEq (Except ε α) :=
  fun a b =>
    decidable_of_iff (exceptToSum a = exceptToSum b)
      (by cases a <;> cases b <;> simp [exceptToSum])

theorem dropWhile_head_not {pred : Char → Bool} {s : List Char} {c : Char} {r : List Char}
    (h : s.dropWhile pred = c :: r) : pred c = false := by
  induction s with
  | nil => simp [List.dropWhile] at h
  | cons a t ih =>
    by_cases ha : pred a
    · rw [List.dropWhile_cons_of_pos ha] at h
      exact ih h
    · rw [List.dropWhile_cons_of_neg ha] at h
      cases h
      simpa using ha

theorem takeWhile_eq_of_maximal {pred : Char → Bool} {ds r : List Char}
    (hall : ∀ c ∈ ds, pred c = true)
    (hr : ∀ c rr, r = c :: rr → pred c = false) :
    (ds ++ r).takeWhile pred = ds := by
  induction ds with
  | nil =>
    cases r with
    | nil => simp
    | cons c rr => simp [List.takeWhile, hr c rr rfl]
  | cons d rest ih =>
    have hd : pred d = true := hall d (List.mem_cons_self ..)
    simp only [List.cons_append, List.takeWhile, hd]
    simp [ih (fun c hc => hall c (List.mem_cons_of_mem _ hc))]

theorem takeBytes_zero (s : List Char) : takeBytes s 0 = some [] := by
  cases s <;> rfl

theorem dropBytes_zero (s : List Char) : dropBytes s 0 = some s := by
  cases s <;> rfl

theorem takeBytes_head (ch : Char) (r : List Char) :
    takeBytes (ch :: r) ch.utf8Size = some [ch] := by
  have h := utf8Size_pos ch
  rw [takeBytes_cons_of_pos _ _ h, if_pos (Nat.le_refl _), Nat.sub_self, takeBytes_zero]
  rfl

/-- A successful explicit-whitespace token: nonempty emitted text, positive
reported length, and the length sits on a code-point boundary of the tail. -/
theorem wsTokenLen_ok_some {T : CharTables} {sp : Wsp} {t : List Char} {n : Nat} {s : List Char}
    (h : wsTokenLen T sp t = .ok (some (n, s))) :
    s ≠ [] ∧ 1 ≤ n ∧ ∃ pre suf, t = pre ++ suf ∧ utf8Len pre = n := by
  cases sp with
  | ignore => exact absurd h (by simp [wsTokenLen])
  | explicitNewline =>
    simp only [wsTokenLen] at h
    by_cases h1 : List.isPrefixOf "\r\n".data t
    · rw [if_pos h1] at h
      simp only [Except.ok.injEq, Option.some.injEq, Prod.mk.injEq] at h
      obtain ⟨rest, hrest⟩ := (List.isPrefixOf_iff_prefix.mp h1)
      exact ⟨by rw [← h.2]; decide, by omega,
        "\r\n".data, rest, hrest.symm, by rw [← h.1]; decide⟩
    · rw [if_neg h1] at h
      by_cases h2 : (List.isPrefixOf "\r".data t || List.isPrefixOf "\n".data t) = true
      · rw [if_pos h2] at h
        simp only [Except.ok.injEq, Option.some.injEq, Prod.mk.injEq] at h
        rcases Bool.or_eq_true_iff.mp h2 with h3 | h3
        · obtain ⟨rest, hrest⟩ := (List.isPrefixOf_iff_prefix.mp h3)
          exact ⟨by rw [← h.2]; decide, by omega,
            "\r".data, rest, hrest.symm, by rw [← h.1]; decide⟩
        · obtain ⟨rest, hrest⟩ := (List.isPrefixOf_iff_prefix.mp h3)
          exact ⟨by rw [← h.2]; decide, by omega,
            "\n".data, rest, hrest.symm, by rw [← h.1]; decide⟩
      · rw [if_neg h2] at h
        exact absurd h (by simp)
  | explicit =>
    simp only [wsTokenLen] at h
    by_cases h1 : List.isPrefixOf "\r\n".data t
    · rw [if_pos h1] at h
      simp only [Except.ok.injEq, Option.some.injEq, Prod.mk.injEq] at h
      obtain ⟨rest, hrest⟩ := (List.isPrefixOf_iff_prefix.mp h1)
      exact ⟨by rw [← h.2]; decide, by omega,
        "\r\n".data, rest, hrest.symm, by rw [← h.1]; decide⟩
    · rw [if_neg h1] at h
      by_cases h2 : (List.isPrefixOf "\r".data t || List.isPrefixOf "\n".data t) = true
      · rw [if_pos h2] at h
        simp only [Except.ok.injEq, Option.some.injEq, Prod.mk.injEq] at h
        rcases Bool.or_eq_true_iff.mp h2 with h3 | h3
        · obtain ⟨rest, hrest⟩ := (List.isPrefixOf_iff_prefix.mp h3)
          exact ⟨by rw [← h.2]; decide, by omega,
            "\r".data, rest, hrest.symm, by rw [← h.1]; decide⟩
        · obtain ⟨rest, hrest⟩ := (List.isPrefixOf_iff_prefix.mp h3)
          exact ⟨by rw [← h.2]; decide, by omega,
            "\n".data, rest, hrest.symm, by rw [← h.1]; decide⟩
      · rw [if_neg h2] at h
        cases hl : lenWhile t (fun c => T.isWhite c && !(c == '\r' || c == '\n')) with
        | none => rw [hl] at h; exact absurd h (by simp)
        | some m =>
          rw [hl] at h
          simp only [Option.map_some', Except.ok.injEq, Option.some.injEq,
            Prod.mk.injEq] at h
          obtain ⟨h1', h2', h3'⟩ := lenWhile_decomp hl
          exact ⟨by rw [← h.2]; decide, by omega,
            _, _, h2', by rw [h3', h.1]⟩
  | explicitAny =>
    simp only [wsTokenLen] at h
    cases hl : lenWhile t T.isWhite with
    | none => rw [hl] at h; exact absurd h (by simp)
    | some m =>
      rw [hl] at h
      simp only [Option.map_some', Except.ok.injEq, Option.some.injEq, Prod.mk.injEq] at h
      obtain ⟨h1', h2', h3'⟩ := lenWhile_decomp hl
      exact ⟨by rw [← h.2]; decide, by omega, _, _, h2', by rw [h3', h.1]⟩
  | exact =>
    cases t with
    | nil => exact absurd h (by simp [wsTokenLen])
    | cons c0 rest =>
      simp only [wsTokenLen] at h
      by_cases hw : (!(T.isWhite c0)) = true
      · rw [if_pos hw] at h
        exact absurd h (by simp)
      · rw [if_neg hw] at h
        by_cases h1 : List.isPrefixOf "\r\n".data (c0 :: rest)
        · rw [if_pos h1] at h
          cases htb : takeBytes (c0 :: rest) 2 with
          | none => rw [htb] at h; exact absurd h (by simp)
          | some tk =>
            rw [htb] at h
            simp only [Except.ok.injEq, Option.some.injEq, Prod.mk.injEq] at h
            obtain ⟨suf, hsuf, hlen⟩ := takeBytes_eq_some htb
            refine ⟨?_, by omega, tk, suf, hsuf, by rw [hlen, h.1]⟩
            rw [← h.2]
            intro hE
            rw [hE] at hlen
            exact absurd hlen (by decide)
        · rw [if_neg h1] at h
          cases htb : takeBytes (c0 :: rest) 1 with
          | none => rw [htb] at h; exact absurd h (by simp)
          | some tk =>
            rw [htb] at h
            simp only [Except.ok.injEq, Option.some.injEq, Prod.mk.injEq] at h
            obtain ⟨suf, hsuf, hlen⟩ := takeBytes_eq_some htb
            refine ⟨?_, by omega, tk, suf, hsuf, by rw [hlen, h.1]⟩
            rw [← h.2]
            intro hE
            rw [hE] at hlen
            exact absurd hlen (by decide)

/-- A successful tokenizer length is positive. -/
theorem tokTokenLen_pos {T : CharTables} {tk : Tok} {t : List Char} {n : Nat}
    (h : tokTokenLen T tk t = some n) : 1 ≤ n := by
  cases tk with
  | wordsAndInts =>
    cases t with
    | nil => exact absurd h (by simp [tokTokenLen])
    | cons c0 rest =>
      simp only [tokTokenLen] at h
      by_cases ha : T.isAlpha c0
      · rw [if_pos ha] at h; exact lenWhile_pos h
      · rw [if_neg ha] at h
        by_cases hd : T.isDigitN c0
        · rw [if_pos hd] at h; exact lenWhile_pos h
        · rw [if_neg hd] at h; exact absurd h (by simp)
  | identsAndInts =>
    cases t with
    | nil => exact absurd h (by simp [tokTokenLen])
    | cons c0 rest =>
      simp only [tokTokenLen] at h
      by_cases ha : (c0 == '_' || T.isXidStart c0) = true
      · rw [if_pos ha] at h; exact lenWhile_pos h
      · rw [if_neg ha] at h
        by_cases hd : T.isDigitN c0
        · rw [if_pos hd] at h; exact lenWhile_pos h
        · rw [if_neg hd] at h; exact absurd h (by simp)
  | spaceDelimited =>
    cases t with
    | nil => exact absurd h (by simp [tokTokenLen])
    | cons c0 rest =>
      simp only [tokTokenLen] at h
      exact lenWhile_pos h
  | explicit =>
    cases t with
    | nil => exact absurd h (by simp [tokTokenLen])
    | cons c0 rest =>
      simp only [tokTokenLen] at h
      injection h with h
      rw [← h, utf8Len_cons]
      have := utf8Size_pos c0
      omega

theorem popWs_facts {T : CharTables} {c cur : Cursor} (h : c.popWs T = .ok cur) :
    c.offset ≤ cur.offset ∧ cur.slice = c.slice ∧ cur.tc = c.tc ∧ cur.sp = c.sp ∧
      cur.cs = c.cs ∧ ∃ t1, cur.tailStr = some t1 := by
  unfold Cursor.popWs at h
  cases ht0 : c.tailStr with
  | none => rw [ht0] at h; exact Except.noConfusion h
  | some t0 =>
    rw [ht0] at h
    injection h with h
    subst h
    have hsplit : t0 = t0.takeWhile (wsStripPred T c.sp) ++ t0.dropWhile (wsStripPred T c.sp) :=
      (List.takeWhile_append_dropWhile _ _).symm
    have hs := sliceFrom_tailStr ht0 hsplit
    rw [← wsStripLen_eq] at hs
    exact ⟨by rw [hs.1]; omega, (sliceFrom_fields ..).1, (sliceFrom_fields ..).2.1,
      (sliceFrom_fields ..).2.2.1, (sliceFrom_fields ..).2.2.2, _, hs.2⟩

/-- Boundary bookkeeping for a `slice_from` by a tail-boundary length. -/
theorem sliceFrom_boundary_facts {cur : Cursor} {t1 pre suf : List Char}
    (ht1 : cur.tailStr = some t1) (hsplit : t1 = pre ++ suf) :
    (cur.sliceFrom (utf8Len pre)).offset = cur.offset + utf8Len pre ∧
      ∃ pre0, (cur.sliceFrom (utf8Len pre)).slice = pre0 ++ suf ∧
        (cur.sliceFrom (utf8Len pre)).offset = utf8Len pre0 := by
  have hs := sliceFrom_tailStr ht1 hsplit
  refine ⟨hs.1, ?_⟩
  obtain ⟨pre0, h1, h2⟩ := tailStr_eq_some.mp hs.2
  exact ⟨pre0, h1, h2.symm⟩

/-- The master lemma about a successful `pop_token`: the token is nonempty,
the successor cursor strictly advances, shares the input and policies, and
its offset is a code-point boundary. -/
theorem popToken_ok_some {T : CharTables} {c q : Cursor} {tok : List Char}
    (h : c.popToken T = .ok (some (tok, q))) :
    tok ≠ [] ∧ c.offset < q.offset ∧ q.slice = c.slice ∧ q.tc = c.tc ∧ q.sp = c.sp ∧
      q.cs = c.cs ∧ ∃ pre suf, q.slice = pre ++ suf ∧ q.offset = utf8Len pre := by
  unfold Cursor.popToken at h
  cases hws : c.popWs T with
  | error e => rw [hws] at h; exact Except.noConfusion h
  | ok cur =>
    rw [hws] at h
    simp only at h
    obtain ⟨hle, hslice, htc, hsp, hcs, t1, ht1⟩ := popWs_facts hws
    rw [ht1] at h
    simp only at h
    cases hwt : wsTokenLen T c.sp t1 with
    | error e => rw [hwt] at h; exact Except.noConfusion h
    | ok r =>
      rw [hwt] at h
      cases r with
      | some pr =>
        obtain ⟨n, s⟩ := pr
        simp only [Except.ok.injEq, Option.some.injEq, Prod.mk.injEq] at h
        obtain ⟨hs, hq⟩ := h
        obtain ⟨hsne, hn1, preW, sufW, hsplit, hlenW⟩ := wsTokenLen_ok_some hwt
        subst hlenW
        subst hq
        have hb := sliceFrom_boundary_facts ht1 hsplit
        obtain ⟨pre0, hb1, hb2⟩ := hb.2
        refine ⟨by rw [← hs]; exact hsne, ?_, ?_, ?_, ?_, ?_, pre0, sufW, hb1, hb2⟩
        · rw [hb.1]; omega
        · rw [(sliceFrom_fields ..).1, hslice]
        · rw [(sliceFrom_fields ..).2.1, htc]
        · rw [(sliceFrom_fields ..).2.2.1, hsp]
        · rw [(sliceFrom_fields ..).2.2.2, hcs]
      | none =>
        cases htok : tokTokenLen T c.tc t1 with
        | some n =>
          rw [htok] at h
          simp only at h
          have hsst : cur.strSliceTo n = takeBytes t1 n := by
            unfold Cursor.strSliceTo
            rw [ht1]
          rw [hsst] at h
          cases htb : takeBytes t1 n with
          | none => rw [htb] at h; exact Except.noConfusion h
          | some tk =>
            rw [htb] at h
            simp only [Except.ok.injEq, Option.some.injEq, Prod.mk.injEq] at h
            obtain ⟨hs, hq⟩ := h
            obtain ⟨suf, hsplit, hlen⟩ := takeBytes_eq_some htb
            have hn1 : 1 ≤ n := tokTokenLen_pos htok
            subst hlen
            subst hq
            have hb := sliceFrom_boundary_facts ht1 hsplit
            obtain ⟨pre0, hb1, hb2⟩ := hb.2
            refine ⟨?_, ?_, ?_, ?_, ?_, ?_, pre0, suf, hb1, hb2⟩
            · rw [← hs]
              intro hE
              rw [hE, utf8Len_nil] at hn1
              omega
            · rw [hb.1]; omega
            · rw [(sliceFrom_fields ..).1, hslice]
            · rw [(sliceFrom_fields ..).2.1, htc]
            · rw [(sliceFrom_fields ..).2.2.1, hsp]
            · rw [(sliceFrom_fields ..).2.2.2, hcs]
        | none =>
          rw [htok] at h
          by_cases hie : cur.isEmpty
          · rw [if_pos hie] at h; exact absurd h (by simp)
          · rw [if_neg hie] at h
            cases t1 with
            | nil => exact Except.noConfusion h
            | cons ch rest =>
              simp only at h
              have hsst : cur.strSliceTo ch.utf8Size = some [ch] := by
                unfold Cursor.strSliceTo
                rw [ht1]
                exact takeBytes_head ch rest
              rw [hsst] at h
              simp only [Except.ok.injEq, Option.some.injEq, Prod.mk.injEq] at h
              obtain ⟨hs, hq⟩ := h
              have hsplit : ch :: rest = [ch] ++ rest := rfl
              have hsz : utf8Len [ch] = ch.utf8Size := by
                rw [show ([ch] : List Char) = ch :: [] from rfl, utf8Len_cons, utf8Len_nil]
                omega
              rw [← hsz] at hq
              subst hq
              have hb := sliceFrom_boundary_facts ht1 hsplit
              obtain ⟨pre0, hb1, hb2⟩ := hb.2
              refine ⟨by rw [← hs]; simp, ?_, ?_, ?_, ?_, ?_, pre0, rest, hb1, hb2⟩
              · rw [hb.1]
                have := utf8Size_pos ch
                rw [hsz]
                omega
              · rw [(sliceFrom_fields ..).1, hslice]
              · rw [(sliceFrom_fields ..).2.1, htc]
              · rw [(sliceFrom_fields ..).2.2.1, hsp]
              · rw [(sliceFrom_fields ..).2.2.2, hcs]

/-! ## Claim theorems -/

theorem scanFloatGo_whole_digits {ds : List Char} (h : ∀ c ∈ ds, isDig c = true)
    (i : Nat) (t : List Char) :
    scanFloatGo .whole i (ds ++ t) = scanFloatGo .whole (i + utf8Len ds) t := by
  induction ds generalizing i with
  | nil => simp [utf8Len_nil]
  | cons d rest ih =>
    have hd : isDig d = true := h d (List.mem_cons_self ..)
    show scanFloatGo .whole i (d :: (rest ++ t)) = _
    simp only [scanFloatGo, hd, if_pos]
    rw [ih (fun c hc => h c (List.mem_cons_of_mem _ hc)) (i + d.utf8Size), utf8Len_cons]
    congr 1
    omega

/-- Claim C2 counterexample: on `"1e"` the float mini-lexer does *not* stop
before the `e` — it returns length 2 (the slice `"1e"`), not length 1 (the
slice `"1"` the claim requires). -/
theorem claimC2_counterexample :
    scanFloat "1e".data = some 2 ∧ (2 : Nat) ≠ 1 := by
  exact ⟨rfl, by omega⟩

/-- The maximal satisfying prefix leaves a remainder whose head fails the
predicate; companion to `takeWhile_eq_of_maximal`. -/
theorem dropWhile_eq_of_maximal {pred : Char → Bool} {ds r : List Char}
    (hall : ∀ c ∈ ds, pred c = true)
    (hr : ∀ c rr, r = c :: rr → pred c = false) :
    (ds ++ r).dropWhile pred = r := by
  induction ds with
  | nil =>
    cases r with
    | nil => simp
    | cons c rr => simp [List.dropWhile, hr c rr rfl]
  | cons d rest ih =>
    have hd : pred d = true := hall d (List.mem_cons_self ..)
    simp only [List.cons_append, List.dropWhile, hd]
    simpa using ih (fun c hc => hall c (List.mem_cons_of_mem _ hc))

/-- `scan_float` on digits followed by an exponent marker that is not
continued by a sign or digit: the returned length covers the digits *and*
the marker. -/
theorem scanFloat_trailing_exp {e : Char} (heb : (e = 'e' || e = 'E') = true)
    (hed : isDig e = false) (hep : e ≠ '.') (hes : e.utf8Size = 1)
    {ds t : List Char} (h1 : ds ≠ []) (h2 : ∀ c ∈ ds, isDig c = true)
    (h3 : ∀ c r, t = c :: r → c ≠ '+' ∧ c ≠ '-' ∧ isDig c = false) :
    scanFloat (ds ++ e :: t) = some (utf8Len ds + 1) := by
  cases ds with
  | nil => exact absurd rfl h1
  | cons d rest =>
    have hd : isDig d = true := h2 d (List.mem_cons_self ..)
    show scanFloatGo .start 0 (d :: (rest ++ e :: t)) = _
    simp only [scanFloatGo, hd, Bool.true_or, if_pos]
    rw [scanFloatGo_whole_digits (fun c hc => h2 c (List.mem_cons_of_mem _ hc)) _ (e :: t)]
    show scanFloatGo .whole (0 + d.utf8Size + utf8Len rest) (e :: t) = _
    simp only [scanFloatGo, hed, hep, if_neg, if_false, Bool.false_eq_true, ite_false]
    rw [if_pos heb]
    have hfin : scanFloatGo .expStart (0 + d.utf8Size + utf8Len rest + e.utf8Size) t
        = some (0 + d.utf8Size + utf8Len rest + e.utf8Size) := by
      cases t with
      | nil => rfl
      | cons c r =>
        obtain ⟨hp, hm, hdg⟩ := h3 c r rfl
        have hcond : (c = '+' || c = '-' || isDig c) = false := by
          simp [hp, hm, hdg]
        simp only [scanFloatGo, hcond]
        rfl
    rw [hfin, hes, utf8Len_cons]
    congr 1
    omega

/-- Consume one or more ASCII digits; `none` when there are none, else the
remainder. -/
def digits1 (s : List Char) : Option (List Char) :=
  if (s.takeWhile isDig).isEmpty then none else some (s.dropWhile isDig)

/-- Strip one leading `-`, if present. -/
def stripNeg : List Char → List Char
  | [] => []
  | c :: r => if c = '-' then r else c :: r

/-- The exponent body after the `e`/`E` marker: an optional sign then one
or more digits, consuming the whole remainder. -/
def floatExpRest (r : List Char) : Bool :=
  let r' :=
    match r with
    | [] => ([] : List Char)
    | c :: r2 => if c = '+' || c = '-' then r2 else c :: r2
  match digits1 r' with
  | some [] => true
  | _ => false

/-- After the whole-part (and optional fraction) digits: either end of
input or a complete `e`/`E` exponent. -/
def floatTailExp : List Char → Bool
  | [] => true
  | c :: r => if c = 'e' || c = 'E' then floatExpRest r else false

/-- Modelled from the spec: the acceptance domain of the float target
type's canonical parser (Rust `FromStr` for `f32`/`f64`, which lives in the
standard library, not under src/) on float-literal syntax — "optional
leading `-`, one-or-more digits, optional `.`+digits, optional
`e`/`E`+optional sign+one-or-more digits" (§4.6), with the entire slice
consumed.  The converted numeric value is floating point and is not
modelled; only the accept/reject verdict is, which is all the decoder's
failure behaviour depends on. -/
def floatLitOk (s : List Char) : Bool :=
  match digits1 (stripNeg s) with
  | none => false
  | some r1 =>
    match r1 with
    | [] => true
    | c :: r =>
      if c = '.' then
        match digits1 r with
        | none => false
        | some r2 => floatTailExp r2
      else floatTailExp (c :: r)

/-- Modelled from the spec: the float conversion, represented by its
acceptance domain. -/
def parseFloatLit (s : List Char) : Option Unit :=
  if floatLitOk s then some () else none

/-- The `Scanner` impls for `f32`/`f64`
(`from_str_slice_scanner! { scan_float -> fN as "real number" }`), with the
conversion modelled by its accept/reject verdict. -/
def floatScan (T : CharTables) (c : Cursor) :
    Except Unit (Except ScanError (Unit × Cursor)) :=
  fromStrSliceScan T scanFloat parseFloatLit "real number".data c

theorem expected_ok_shape {T : CharTables} {c : Cursor} {desc : List Char} {e : ScanError}
    (h : c.expected T desc = .ok e) : ∃ m, e = .otherScanError m c.consumed := by
  unfold Cursor.expected at h
  cases hp : c.popToken T with
  | error e1 => rw [hp] at h; exact Except.noConfusion h
  | ok r =>
    rw [hp] at h
    cases r with
    | none =>
      simp only [Except.ok.injEq] at h
      exact ⟨_, h.symm⟩
    | some pr =>
      obtain ⟨got, _⟩ := pr
      simp only [Except.ok.injEq] at h
      exact ⟨_, h.symm⟩

theorem fromStrSliceScan_error {α : Type} {T : CharTables}
    {scanFn : List Char → Option Nat} {parse : List Char → Option α}
    {nm : List Char} {c : Cursor} {e : ScanError}
    (h : fromStrSliceScan T scanFn parse nm c = .ok (.error e)) :
    c.expected T nm = .ok e ∧ ∃ m, e = .otherScanError m c.consumed := by
  unfold fromStrSliceScan at h
  cases ht : c.tailStr with
  | none => rw [ht] at h; exact Except.noConfusion h
  | some t =>
    rw [ht] at h
    simp only at h
    cases hs : scanFn t with
    | none =>
      rw [hs] at h
      cases he : c.expected T nm with
      | error e1 => rw [he] at h; exact Except.noConfusion h
      | ok err =>
        rw [he] at h
        simp only [Except.ok.injEq, Except.error.injEq] at h
        subst h
        exact ⟨rfl, expected_ok_shape he⟩
    | some n =>
      rw [hs] at h
      simp only at h
      cases hsl : c.strSliceTo n with
      | none => rw [hsl] at h; exact Except.noConfusion h
      | some sl =>
        rw [hsl] at h
        simp only at h
        cases hpar : parse sl with
        | some v => rw [hpar] at h; simp at h
        | none =>
          rw [hpar] at h
          cases he : c.expected T nm with
          | error e1 => rw [he] at h; exact Except.noConfusion h
          | ok err =>
            rw [he] at h
            simp only [Except.ok.injEq, Except.error.injEq] at h
            subst h
            exact ⟨rfl, expected_ok_shape he⟩

/-- When the mini-lexer's slice is rejected by the conversion, the scanner
family never produces a value. -/
theorem fromStrSliceScan_parse_none {α : Type} {T : CharTables}
    {scanFn : List Char → Option Nat} {parse : List Char → Option α}
    {nm t : List Char} {c : Cursor} {n : Nat} {sl : List Char}
    (htail : c.tailStr = some t) (hscan : scanFn t = some n)
    (hslice : c.strSliceTo n = some sl) (hparse : parse sl = none) :
    ∀ (v : α) (q : Cursor), fromStrSliceScan T scanFn parse nm c ≠ .ok (.ok (v, q)) := by
  intro v q hok
  unfold fromStrSliceScan at hok
  rw [htail] at hok
  simp only at hok
  rw [hscan] at hok
  simp only at hok
  rw [hslice] at hok
  simp only at hok
  rw [hparse] at hok
  cases he : c.expected T nm with
  | error e => rw [he] at hok; exact Except.noConfusion hok
  | ok err => rw [he] at hok; simp at hok

/-- Claim C2 (corrected): on digits followed by a trailing `e` or `E` that
is not followed by a sign or digit, `scan_float` stops at the first
character that cannot continue the exponent, so the returned length
*includes* the marker; the matched slice (`"1e"` for input `"1e"`) is then
rejected by the target type's conversion, so the float decoder fails
outright — never yielding a value, and reporting the standard
`expected real number` text mismatch at the cursor's offset — rather than
matching the longest valid prefix. -/
theorem claimC2_scan_float_includes_e (ds t : List Char) (e : Char)
    (he : e = 'e' ∨ e = 'E')
    (h1 : ds ≠ []) (h2 : ∀ c ∈ ds, isDig c = true)
    (h3 : ∀ c r, t = c :: r → c ≠ '+' ∧ c ≠ '-' ∧ isDig c = false) :
    scanFloat (ds ++ e :: t) = some (utf8Len ds + 1) ∧
    floatLitOk (ds ++ [e]) = false ∧
    (∀ (T : CharTables) (c : Cursor), c.tailStr = some (ds ++ e :: t) →
      (∀ (v : Unit) (q : Cursor), floatScan T c ≠ .ok (.ok (v, q))) ∧
      (∀ err, floatScan T c = .ok (.error err) →
        c.expected T "real number".data = .ok err ∧
          ∃ m, err = .otherScanError m c.consumed)) ∧
    floatScan stdTables (Cursor.new "1e".data .wordsAndInts .ignore .exact)
      = .ok (.error (.otherScanError "expected real number, got `1`".data 0)) := by
  have heb : (e = 'e' || e = 'E') = true := by
    rcases he with rfl | rfl <;> simp
  have hed : isDig e = false := by rcases he with rfl | rfl <;> decide
  have hep : e ≠ '.' := by rcases he with rfl | rfl <;> decide
  have hes : e.utf8Size = 1 := by rcases he with rfl | rfl <;> decide
  have hmain := scanFloat_trailing_exp heb hed hep hes h1 h2 h3
  have hre : ∀ c rr, ([e] : List Char) = c :: rr → isDig c = false := by
    intro c rr hcr
    injection hcr with hc _
    rw [← hc]
    exact hed
  have hdig : digits1 (ds ++ [e]) = some [e] := by
    unfold digits1
    rw [takeWhile_eq_of_maximal h2 hre, dropWhile_eq_of_maximal h2 hre,
      if_neg (by simpa [List.isEmpty_iff] using h1)]
  have hlit : floatLitOk (ds ++ [e]) = false := by
    cases ds with
    | nil => exact absurd rfl h1
    | cons d ds' =>
      have hd : isDig d = true := h2 d (List.mem_cons_self ..)
      have hdm : d ≠ '-' := by
        intro hE
        rw [hE] at hd
        exact absurd hd (by decide)
      have hstrip : stripNeg ((d :: ds') ++ [e]) = (d :: ds') ++ [e] := by
        simp only [List.cons_append, stripNeg]
        rw [if_neg hdm]
      unfold floatLitOk
      rw [hstrip, hdig]
      simp only
      rw [if_neg hep]
      show floatTailExp (e :: []) = false
      unfold floatTailExp
      simp only
      rw [if_pos heb]
      rfl
  refine ⟨hmain, hlit, ?_, by decide⟩
  intro T c htail
  have hlen : utf8Len (ds ++ [e]) = utf8Len ds + 1 := by
    rw [utf8Len_append, show utf8Len [e] = e.utf8Size from by
      rw [show ([e] : List Char) = e :: [] from rfl, utf8Len_cons, utf8Len_nil]; omega, hes]
  have hassoc : ds ++ e :: t = (ds ++ [e]) ++ t := by simp
  have hslice : c.strSliceTo (utf8Len ds + 1) = some (ds ++ [e]) := by
    unfold Cursor.strSliceTo
    rw [htail]
    simp only
    rw [hassoc, ← hlen, takeBytes_append]
  have hparse : parseFloatLit (ds ++ [e]) = none := by
    unfold parseFloatLit
    rw [hlit]
    rfl
  constructor
  · exact fromStrSliceScan_parse_none htail hmain hslice hparse
  · intro err herr
    exact fromStrSliceScan_error herr

/-- Claim C2 witness: the corrected statement at the concrete input `"1E"`
(uppercase exponent marker, end of input): the lexer covers the `E` and the
conversion rejects the slice. -/
theorem claimC2_witness :
    scanFloat ("1".data ++ 'E' :: []) = some 2 ∧ floatLitOk ("1".data ++ ['E']) = false :=
  ⟨(claimC2_scan_float_includes_e "1".data [] 'E' (Or.inr rfl) (by decide) (by decide)
      (fun c r hcr => by cases hcr)).1,
    (claimC2_scan_float_includes_e "1".data [] 'E' (Or.inr rfl) (by decide) (by decide)
      (fun c r hcr => by cases hcr)).2.1⟩

/-- Claim C3 counterexample: U+212A (KELVIN SIGN) against `"k"` — equal
code-point counts (one each) and equal per-code-point lowercase images, yet
`CaseInsensitive::compare_strs` returns `false`, because the source gates on
the *byte* lengths (3 versus 1), not the code-point counts. -/
theorem claimC3_counterexample :
    compareStrs stdTables .caseInsensitive [Char.ofNat 0x212A] ['k'] = false ∧
      [Char.ofNat 0x212A].length = (['k'] : List Char).length ∧
      stdTables.toLower (Char.ofNat 0x212A) = stdTables.toLower 'k' ∧
      utf8Len [Char.ofNat 0x212A] = 3 ∧ utf8Len ['k'] = 1 := by
  exact ⟨rfl, rfl, by decide, by decide, by decide⟩

/-- Claim C3 (corrected): `CaseInsensitive.compare_strs` first confirms that
`a` and `b` have equal UTF-8 *byte* lengths (not code-point counts), and
returns `true` iff that check passes and the per-code-point lowercase forms
are pairwise equal over the zipped code points.  The known limitation — no
multi-code-point lowercase expansion, no locale awareness — is preserved. -/
theorem claimC3_case_insensitive (T : CharTables) (a b : List Char) :
    compareStrs T .caseInsensitive a b = true ↔
      utf8Len a = utf8Len b ∧ ∀ pr ∈ a.zip b, T.toLower pr.1 = T.toLower pr.2 := by
  show (if utf8Len a != utf8Len b then false
    else (a.zip b).all (fun pr => T.toLower pr.1 == T.toLower pr.2)) = true ↔ _
  by_cases hl : utf8Len a = utf8Len b
  · rw [if_neg (by simp [hl])]
    simp [List.all_eq_true, hl]
  · rw [if_pos (by simp [hl])]
    simp [hl]

/-- Claim C3 witness: the corrected characterization applied at mixed-case
ASCII strings of equal byte length. -/
theorem claimC3_witness : compareStrs stdTables .caseInsensitive "AbC".data "aBc".data = true :=
  (claimC3_case_insensitive stdTables "AbC".data "aBc".data).mpr ⟨by decide, by decide⟩

/-- Claim C4 (code bug): the `Exact` whitespace policy's `token_len` always
slices one byte (`s.slice_to(1)`) outside the `"\r\n"` case, so on a
*multi-byte* whitespace code point such as U+00A0 — which `is_whitespace`
accepts — the slice falls inside the code point's encoding and Rust panics,
instead of emitting the code point as its own token as the documentation and
the claim state.  Single-byte whitespace behaves as claimed. -/
theorem claimC4_exact_multibyte_panics :
    wsTokenLen stdTables .exact (Char.ofNat 0xA0 :: "x".data) = .error () ∧
      isWhiteStd (Char.ofNat 0xA0) = true ∧ (Char.ofNat 0xA0).utf8Size = 2 ∧
      wsTokenLen stdTables .exact " x".data = .ok (some (1, " ".data)) ∧
      wsTokenLen stdTables .exact "\r\n x".data = .ok (some (2, "\r\n".data)) ∧
      wsStripLen stdTables .exact (Char.ofNat 0xA0 :: "x".data) = 0 := by
  refine ⟨by decide, by decide, by decide, by decide, by decide, rfl⟩

/-- Claim C6: merging scan errors — an IO failure on either side wins and is
never masked; two text mismatches resolve to one of the two inputs, the one
carrying the larger offset (the right one on ties); and the spec's concrete
scenario. -/
theorem claimC6_scan_error_merge :
    (∀ e1 e2 : ScanError, (e1.isIo = true ∨ e2.isIo = true) →
      (ScanError.or e1 e2).isIo = true) ∧
    (∀ (m1 : List Char) (o1 : Nat) (m2 : List Char) (o2 : Nat),
      (ScanError.or (.otherScanError m1 o1) (.otherScanError m2 o2) = .otherScanError m1 o1 ∨
        ScanError.or (.otherScanError m1 o1) (.otherScanError m2 o2) = .otherScanError m2 o2) ∧
      (ScanError.or (.otherScanError m1 o1) (.otherScanError m2 o2)).off = max o1 o2) ∧
    ScanError.or (.otherScanError "a".data 3) (.otherScanError "b".data 5)
      = .otherScanError "b".data 5 := by
  refine ⟨?_, ?_, by decide⟩
  · intro e1 e2 h
    cases e1 <;> cases e2 <;>
      simp only [ScanError.or, ScanError.isIo] at h ⊢ <;> simp at h
  · intro m1 o1 m2 o2
    constructor
    · by_cases ho : o1 > o2
      · left; simp [ScanError.or, ho]
      · right; simp [ScanError.or, ho]
    · by_cases ho : o1 > o2 <;>
        simp only [ScanError.or, ho, if_true, if_false, ScanError.off, ite_true, ite_false] <;>
        omega

/-- Claim C6 witness: an IO failure on the right is not masked by a deeper
text mismatch on the left. -/
theorem claimC6_witness :
    (ScanError.or (.otherScanError "a".data 99) (.scanIoError 7)).isIo = true :=
  claimC6_scan_error_merge.1 _ _ (Or.inr rfl)

theorem isEmpty_iff_tail_nil {c : Cursor} {t : List Char} (h : c.tailStr = some t) :
    c.isEmpty = true ↔ t = [] := by
  obtain ⟨pre, h1, h2⟩ := tailStr_eq_some.mp h
  unfold Cursor.isEmpty
  rw [h1, utf8Len_append, ← h2, beq_iff_eq]
  constructor
  · intro hh
    have ht0 : utf8Len t = 0 := by omega
    exact utf8Len_eq_zero.mp ht0
  · intro hh
    rw [hh, utf8Len_nil]
    omega

/-- Claim C1's algorithm, transcribed from the specification's own wording:
strip the skippable leading whitespace and advance; ask the whitespace
policy for an explicit whitespace token on the new tail, and if present
return it, advancing by its reported length; otherwise ask the tokenizer
for a token length and, if present, return that many bytes of the tail as
the token; otherwise, if input remains, return exactly one code point;
otherwise return no token. -/
def popTokenPerSpec (T : CharTables) (c : Cursor) : Except Unit (Option (List Char × Cursor)) :=
  match c.tailStr with
  | none => .error ()
  | some t0 =>
    let p := c.sliceFrom (wsStripLen T c.sp t0)
    match p.tailStr with
    | none => .error ()
    | some t =>
      match wsTokenLen T p.sp t with
      | .error e => .error e
      | .ok (some (n, tok)) => .ok (some (tok, p.sliceFrom n))
      | .ok none =>
        match tokTokenLen T p.tc t with
        | some n =>
          match takeBytes t n with
          | none => .error ()
          | some tok => .ok (some (tok, p.sliceFrom n))
        | none =>
          match t with
          | [] => .ok none
          | ch :: _ => .ok (some ([ch], p.sliceFrom ch.utf8Size))

/-- Claim C1: `pop_token` follows exactly the claimed algorithm — the
refinement against the spec-side transcription holds for every cursor and
every policy combination — and, with the `WordsAndInts` tokenizer and
`Ignore` whitespace policy on `"abc123"`, successive calls yield `"abc"`
(offset 3) and then `"123"` (offset 6). -/
theorem claimC1_pop_token_algorithm :
    (∀ (T : CharTables) (c : Cursor), c.popToken T = popTokenPerSpec T c) ∧
    Cursor.popToken stdTables (Cursor.new "abc123".data .wordsAndInts .ignore .exact)
      = .ok (some ("abc".data, ⟨"abc123".data, 3, .wordsAndInts, .ignore, .exact⟩)) ∧
    Cursor.popToken stdTables ⟨"abc123".data, 3, .wordsAndInts, .ignore, .exact⟩
      = .ok (some ("123".data, ⟨"abc123".data, 6, .wordsAndInts, .ignore, .exact⟩)) := by
  refine ⟨?_, by decide, by decide⟩
  intro T c
  unfold Cursor.popToken Cursor.popWs popTokenPerSpec
  cases ht0 : c.tailStr with
  | none => rfl
  | some t0 =>
    simp only
    cases htp : (c.sliceFrom (wsStripLen T c.sp t0)).tailStr with
    | none => rfl
    | some t =>
      simp only
      rw [show (c.sliceFrom (wsStripLen T c.sp t0)).sp = c.sp from rfl,
        show (c.sliceFrom (wsStripLen T c.sp t0)).tc = c.tc from rfl]
      cases hwt : wsTokenLen T c.sp t with
      | error e => rfl
      | ok r =>
        cases r with
        | some pr => rfl
        | none =>
          cases htok : tokTokenLen T c.tc t with
          | some n =>
            simp only
            rw [show (c.sliceFrom (wsStripLen T c.sp t0)).strSliceTo n
                = takeBytes t n from by unfold Cursor.strSliceTo; rw [htp]]
          | none =>
            simp only
            cases ht : t with
            | nil =>
              rw [if_pos ((isEmpty_iff_tail_nil (ht ▸ htp)).mpr rfl)]
            | cons ch rest =>
              rw [if_neg (by
                rw [Bool.not_eq_true]
                rw [show (c.sliceFrom (wsStripLen T c.sp t0)).isEmpty = false from by
                  have hiff := isEmpty_iff_tail_nil (ht ▸ htp)
                  cases hE : (c.sliceFrom (wsStripLen T c.sp t0)).isEmpty
                  · rfl
                  · exact absurd (hiff.mp hE) (by simp)])]
              simp only
              rw [show (c.sliceFrom (wsStripLen T c.sp t0)).strSliceTo ch.utf8Size
                  = some [ch] from by
                unfold Cursor.strSliceTo
                rw [htp]
                simp only
                rw [ht]
                exact takeBytes_head ch rest]

/-- A successful `expect_tok` means `pop_token` produced a token that the
cursor's comparator accepted against the literal; the successor is the
popped one. -/
theorem expectTok_ok_some {T : CharTables} {c q : Cursor} {s : List Char}
    (h : c.expectTok T s = .ok (.ok q)) :
    ∃ tok, c.popToken T = .ok (some (tok, q)) ∧ c.compareStrs T s tok = true := by
  unfold Cursor.expectTok at h
  cases hp : c.popToken T with
  | error e => rw [hp] at h; exact Except.noConfusion h
  | ok r =>
    rw [hp] at h
    cases r with
    | none =>
      simp only at h
      cases hex : c.expectedTok T s with
      | error e => rw [hex] at h; exact Except.noConfusion h
      | ok err => rw [hex] at h; simp at h
    | some pr =>
      obtain ⟨tok, cur⟩ := pr
      simp only at h
      by_cases hc : c.compareStrs T s tok
      · rw [if_pos hc] at h
        simp only [Except.ok.injEq] at h
        subst h
        exact ⟨tok, rfl, hc⟩
      · rw [if_neg hc] at h
        cases hex : c.expectedTok T s with
        | error e => rw [hex] at h; exact Except.noConfusion h
        | ok err => rw [hex] at h; simp at h

/-- Claim C7 counterexample: with the `Ignore` whitespace policy and `Exact`
comparator on input `" x"`, `expect_tok("x")` succeeds, but the consumed
slice — the input between the position and the returned successor — is
`" x"` (it includes the silently stripped blank), which does not compare
equal to `"x"` in either argument order. -/
theorem claimC7_counterexample :
    Cursor.expectTok stdTables (Cursor.new " x".data .wordsAndInts .ignore .exact) "x".data
      = .ok (.ok ⟨" x".data, 2, .wordsAndInts, .ignore, .exact⟩) ∧
    Cursor.strSliceToCur (Cursor.new " x".data .wordsAndInts .ignore .exact)
      ⟨" x".data, 2, .wordsAndInts, .ignore, .exact⟩ = some " x".data ∧
    compareStrs stdTables .exact "x".data " x".data = false ∧
    compareStrs stdTables .exact " x".data "x".data = false := by
  exact ⟨by decide, by decide, by decide, by decide⟩

/-- Claim C7 (corrected): when `expect_tok(s)` succeeds it is the *popped
token* — not the whole consumed input slice — that compares equal to `s`
under the active comparator; the consumed slice additionally contains any
whitespace stripped by the policy, and for a whitespace-emitted token may
differ from the token text entirely. -/
theorem claimC7_expect_tok_matches_token (T : CharTables) (c q : Cursor) (s : List Char)
    (h : c.expectTok T s = .ok (.ok q)) :
    ∃ tok, c.popToken T = .ok (some (tok, q)) ∧ c.compareStrs T s tok = true :=
  expectTok_ok_some h

/-- Claim C7 witness: the corrected statement at input `"x"`. -/
theorem claimC7_witness :
    ∃ tok, Cursor.popToken stdTables (Cursor.new "x".data .wordsAndInts .ignore .exact)
        = .ok (some (tok, ⟨"x".data, 1, .wordsAndInts, .ignore, .exact⟩)) ∧
      Cursor.compareStrs stdTables (Cursor.new "x".data .wordsAndInts .ignore .exact)
        "x".data tok = true :=
  claimC7_expect_tok_matches_token stdTables _ _ "x".data (by decide)

/-- Iterated `pop_token`, discarding the tokens: `none` marks reaching end
of input. -/
def popIter (T : CharTables) : Nat → Cursor → Except Unit (Option Cursor)
  | 0, c => .ok (some c)
  | k + 1, c =>
    match c.popToken T with
    | .error e => .error e
    | .ok none => .ok none
    | .ok (some (_, q)) => popIter T k q

/-- Claim C10: with every tokenizer and whitespace policy, a successful
`pop_token` returns a nonempty token and a strictly advanced successor;
consequently at most `byte-length(input)` successive pops can succeed, so
repeated popping reaches end of input after finitely many steps. -/
theorem claimC10_pop_token_progress (T : CharTables) :
    (∀ (c q : Cursor) (tok : List Char), c.popToken T = .ok (some (tok, q)) →
      tok ≠ [] ∧ c.offset < q.offset) ∧
    (∀ (k : Nat) (c q : Cursor), 1 ≤ k → popIter T k c = .ok (some q) →
      c.offset + k ≤ utf8Len c.slice) := by
  constructor
  · intro c q tok h
    obtain ⟨h1, h2, _⟩ := popToken_ok_some h
    exact ⟨h1, h2⟩
  · intro k
    induction k with
    | zero => intro c q h1 _; omega
    | succ n ih =>
      intro c q _ h
      simp only [popIter] at h
      cases hp : c.popToken T with
      | error e => rw [hp] at h; exact Except.noConfusion h
      | ok r =>
        rw [hp] at h
        cases r with
        | none => simp at h
        | some pr =>
          obtain ⟨tok, c1⟩ := pr
          simp only at h
          obtain ⟨hne, hlt, hsl, _, _, _, pre, suf, hps, hoff⟩ := popToken_ok_some hp
          have hc1le : c1.offset ≤ utf8Len c1.slice := by
            rw [hps, hoff, utf8Len_append]
            omega
          cases n with
          | zero =>
            rw [← hsl]
            omega
          | succ m =>
            have hih := ih c1 q (by omega) h
            rw [hsl] at hih
            omega

/-- Claim C10 witness: the first successful pop on `"abc123"`. -/
theorem claimC10_witness :
    "abc".data ≠ [] ∧
      (Cursor.new "abc123".data .wordsAndInts .ignore .exact).offset
        < (⟨"abc123".data, 3, .wordsAndInts, .ignore, .exact⟩ : Cursor).offset :=
  (claimC10_pop_token_progress stdTables).1
    (Cursor.new "abc123".data .wordsAndInts .ignore .exact)
    ⟨"abc123".data, 3, .wordsAndInts, .ignore, .exact⟩ "abc".data (by decide)

theorem scanUint_eq_some (s : List Char) (n : Nat) :
    scanUint s = some n ↔
      ∃ ds r, s = ds ++ r ∧ ds ≠ [] ∧ (∀ c ∈ ds, isDig c = true) ∧
        (∀ c rr, r = c :: rr → isDig c = false) ∧ n = utf8Len ds := by
  constructor
  · intro h
    obtain ⟨h1, h2, h3⟩ := lenWhile_decomp h
    obtain ⟨hne, _⟩ := lenWhile_eq_some h
    refine ⟨s.takeWhile isDig, s.dropWhile isDig, h2, hne,
      fun c hc => List.mem_takeWhile_imp hc, fun c rr hcr => dropWhile_head_not hcr, h3.symm⟩
  · rintro ⟨ds, r, rfl, hne, hall, hr, rfl⟩
    unfold scanUint lenWhile
    rw [takeWhile_eq_of_maximal hall hr]
    rw [if_neg (by simpa [List.isEmpty_iff] using hne)]

/-- Claim C8: the fixed-width integer decoders' mini-lexer matches an
optional leading `-` (signed only; the unsigned lexer rejects any leading
sign) followed by one or more decimal digits, as a longest match; the
matched slice is handed to the target type's own parser; every failure —
no match *or* failed conversion (e.g. overflow) — is reported as the same
`expected`-style text mismatch at the cursor's offset, never as a distinct
error kind; and the signed decoder on `"-42x"` yields `-42` with the
successor positioned at `"x"`. -/
theorem claimC8_fixed_int_scanners :
    (∀ (s : List Char) (n : Nat), scanUint s = some n ↔
      ∃ ds r, s = ds ++ r ∧ ds ≠ [] ∧ (∀ c ∈ ds, isDig c = true) ∧
        (∀ c rr, r = c :: rr → isDig c = false) ∧ n = utf8Len ds) ∧
    (∀ (s : List Char) (n : Nat), scanInt s = some n ↔
      ((∃ ds r, s = ds ++ r ∧ ds ≠ [] ∧ (∀ c ∈ ds, isDig c = true) ∧
        (∀ c rr, r = c :: rr → isDig c = false) ∧ n = utf8Len ds) ∨
       (∃ ds r, s = '-' :: (ds ++ r) ∧ ds ≠ [] ∧ (∀ c ∈ ds, isDig c = true) ∧
        (∀ c rr, r = c :: rr → isDig c = false) ∧ n = utf8Len ds + 1))) ∧
    (∀ s : List Char, scanUint ('-' :: s) = none) ∧
    (∀ (T : CharTables) (bits : Nat) (c : Cursor) (e : ScanError),
      scanFixedInt T bits c = .ok (.error e) →
        c.expected T (intName bits) = .ok e ∧ ∃ m, e = .otherScanError m c.consumed) ∧
    (∀ (T : CharTables) (bits : Nat) (c : Cursor) (e : ScanError),
      scanFixedUint T bits c = .ok (.error e) →
        c.expected T (uintName bits) = .ok e ∧ ∃ m, e = .otherScanError m c.consumed) ∧
    scanFixedInt stdTables 8 (Cursor.new "-42x".data .wordsAndInts .ignore .exact)
      = .ok (.ok (-42, ⟨"-42x".data, 3, .wordsAndInts, .ignore, .exact⟩)) := by
  refine ⟨scanUint_eq_some, ?_, ?_, ?_, ?_, by decide⟩
  · intro s n
    constructor
    · intro h
      cases s with
      | nil => exact absurd h (by simp [scanInt])
      | cons c r =>
        unfold scanInt at h
        simp only at h
        by_cases hc : c = '-'
        · rw [if_pos hc] at h
          cases hu : scanUint r with
          | none => rw [hu] at h; simp at h
          | some m =>
            rw [hu] at h
            simp only [Option.map_some', Option.some.injEq] at h
            obtain ⟨ds, rr, hsplit, hne, hall, hr, hlen⟩ := (scanUint_eq_some r m).mp hu
            right
            exact ⟨ds, rr, by rw [hc, hsplit], hne, hall, hr, by omega⟩
        · rw [if_neg hc] at h
          cases hu : scanUint (c :: r) with
          | none => rw [hu] at h; simp at h
          | some m =>
            rw [hu] at h
            simp only [Option.map_some', Option.some.injEq] at h
            obtain ⟨ds, rr, hsplit, hne, hall, hr, hlen⟩ := (scanUint_eq_some (c :: r) m).mp hu
            left
            exact ⟨ds, rr, hsplit, hne, hall, hr, by omega⟩
    · intro h
      rcases h with ⟨ds, r, hsplit, hne, hall, hr, hlen⟩ | ⟨ds, r, hsplit, hne, hall, hr, hlen⟩
      · cases ds with
        | nil => exact absurd rfl hne
        | cons d ds' =>
          have hd : isDig d = true := hall d (List.mem_cons_self ..)
          have hdm : d ≠ '-' := by
            intro hE
            rw [hE] at hd
            exact absurd hd (by decide)
          rw [hsplit]
          show scanInt (d :: (ds' ++ r)) = some n
          unfold scanInt
          simp only
          rw [if_neg hdm]
          rw [show ((d :: (ds' ++ r) : List Char)) = (d :: ds') ++ r from rfl]
          rw [(scanUint_eq_some _ _).mpr ⟨d :: ds', r, rfl, hne, hall, hr, rfl⟩]
          simp [hlen]
      · rw [hsplit]
        show scanInt ('-' :: (ds ++ r)) = some n
        unfold scanInt
        simp only
        rw [if_pos trivial]
        rw [(scanUint_eq_some _ _).mpr ⟨ds, r, rfl, hne, hall, hr, rfl⟩]
        simp [hlen]
  · intro s
    unfold scanUint lenWhile
    rw [show (('-' :: s : List Char)).takeWhile isDig = [] from by
      simp [List.takeWhile, show isDig '-' = false from by decide]]
    rfl
  · intro T bits c e h
    exact fromStrSliceScan_error h
  · intro T bits c e h
    exact fromStrSliceScan_error h

/-- Claim C8 witness: the unsigned characterization at the concrete input
`"42x"` — two digits matched, stopping before `x`. -/
theorem claimC8_witness : scanUint "42x".data = some 2 :=
  (claimC8_fixed_int_scanners.1 "42x".data 2).mpr
    ⟨"42".data, "x".data, rfl, by decide, by decide,
      fun c rr hcr => by
        have : c = 'x' := by
          have h2 : ("x".data : List Char) = ['x'] := rfl
          rw [h2] at hcr
          injection hcr with h3 h4
          exact h3.symm
        rw [this]
        decide,
      by decide⟩

/-- Well-formedness of a cursor: its offset is the byte length of a
code-point prefix of its input — i.e. `0 ≤ offset ≤ len` *and* the offset
sits on a code-point boundary. -/
def CursorWF (c : Cursor) : Prop :=
  ∃ pre suf, c.slice = pre ++ suf ∧ c.offset = utf8Len pre

theorem cursorWF_of_tailStr {c : Cursor} {t : List Char} (h : c.tailStr = some t) :
    CursorWF c := by
  obtain ⟨pre, h1, h2⟩ := tailStr_eq_some.mp h
  exact ⟨pre, t, h1, h2.symm⟩

theorem cursorWF_le {c : Cursor} (h : CursorWF c) : c.offset ≤ utf8Len c.slice := by
  obtain ⟨pre, suf, h1, h2⟩ := h
  rw [h1, h2, utf8Len_append]
  omega

theorem charScan_ok_wf {T : CharTables} {c q : Cursor} {ch : Char}
    (h : charScan T c = .ok (.ok (ch, q))) : CursorWF q := by
  unfold charScan at h
  cases ht : c.tailStr with
  | none => rw [ht] at h; exact Except.noConfusion h
  | some t =>
    rw [ht] at h
    cases t with
    | nil =>
      simp only at h
      cases he : c.expected T "character".data with
      | error e => rw [he] at h; exact Except.noConfusion h
      | ok err => rw [he] at h; simp at h
    | cons c0 rest =>
      simp only [Except.ok.injEq, Prod.mk.injEq] at h
      obtain ⟨hch, hq⟩ := h
      have hsz : utf8Len [c0] = c0.utf8Size := by
        rw [show ([c0] : List Char) = c0 :: [] from rfl, utf8Len_cons, utf8Len_nil]
        omega
      rw [← hsz] at hq
      subst hq
      have hb := sliceFrom_boundary_facts ht (show c0 :: rest = [c0] ++ rest from rfl)
      obtain ⟨pre0, h1, h2⟩ := hb.2
      exact ⟨pre0, rest, h1, h2⟩

theorem fromStrSliceScan_ok_wf {α : Type} {T : CharTables}
    {scanFn : List Char → Option Nat} {parse : List Char → Option α}
    {nm : List Char} {c q : Cursor} {v : α}
    (h : fromStrSliceScan T scanFn parse nm c = .ok (.ok (v, q))) : CursorWF q := by
  unfold fromStrSliceScan at h
  cases ht : c.tailStr with
  | none => rw [ht] at h; exact Except.noConfusion h
  | some t =>
    rw [ht] at h
    simp only at h
    cases hs : scanFn t with
    | none =>
      rw [hs] at h
      cases he : c.expected T nm with
      | error e => rw [he] at h; exact Except.noConfusion h
      | ok err => rw [he] at h; simp at h
    | some n =>
      rw [hs] at h
      simp only at h
      have hsst : c.strSliceTo n = takeBytes t n := by
        unfold Cursor.strSliceTo
        rw [ht]
      rw [hsst] at h
      cases htb : takeBytes t n with
      | none => rw [htb] at h; exact Except.noConfusion h
      | some sl =>
        rw [htb] at h
        simp only at h
        cases hp : parse sl with
        | none =>
          rw [hp] at h
          cases he : c.expected T nm with
          | error e => rw [he] at h; exact Except.noConfusion h
          | ok err => rw [he] at h; simp at h
        | some v1 =>
          rw [hp] at h
          simp only [Except.ok.injEq, Prod.mk.injEq] at h
          obtain ⟨hv, hq⟩ := h
          obtain ⟨suf, hsuf, hlen⟩ := takeBytes_eq_some htb
          rw [← hlen] at hq
          subst hq
          have hb := sliceFrom_boundary_facts ht hsuf
          obtain ⟨pre0, h1, h2⟩ := hb.2
          exact ⟨pre0, suf, h1, h2⟩

theorem boolScan_ok {T : CharTables} {c q : Cursor} {b : Bool}
    (h : boolScan T c = .ok (.ok (b, q))) :
    c.expectTok T "true".data = .ok (.ok q) ∨ c.expectTok T "false".data = .ok (.ok q) := by
  unfold boolScan at h
  cases h1 : c.expectTok T "true".data with
  | error e => rw [h1] at h; exact Except.noConfusion h
  | ok r1 =>
    rw [h1] at h
    cases r1 with
    | ok cur =>
      simp only [Except.ok.injEq, Prod.mk.injEq] at h
      left
      rw [h.2]
    | error e1 =>
      simp only at h
      cases h2 : c.expectTok T "false".data with
      | error e => rw [h2] at h; exact Except.noConfusion h
      | ok r2 =>
        rw [h2] at h
        cases r2 with
        | ok cur =>
          simp only [Except.ok.injEq, Prod.mk.injEq] at h
          right
          rw [h.2]
        | error e2 =>
          simp only at h
          cases he : c.expected T "`true` or `false`".data with
          | error e => rw [he] at h; exact Except.noConfusion h
          | ok err => rw [he] at h; simp at h

theorem strScan_ok {T : CharTables} {c q : Cursor} {s : List Char}
    (h : strScan T c = .ok (.ok (s, q))) : c.popToken T = .ok (some (s, q)) := by
  unfold strScan at h
  cases hp : c.popToken T with
  | error e => rw [hp] at h; exact Except.noConfusion h
  | ok r =>
    rw [hp] at h
    cases r with
    | none =>
      simp only at h
      cases he : c.expected T "any token".data with
      | error e => rw [he] at h; exact Except.noConfusion h
      | ok err => rw [he] at h; simp at h
    | some pr =>
      obtain ⟨tok, cur⟩ := pr
      simp only [Except.ok.injEq, Prod.mk.injEq] at h
      rw [h.1, h.2]

/-- One step of the operations claim C5 lists, *except* raw `slice_from`:
`pop_ws`, `pop_token`, `expect_tok`, and the scanner calls (`char`, `bool`,
`&str`/`String`, `()`, and the `from_str_slice_scanner!` family over the
numeric mini-lexers). -/
inductive Step (T : CharTables) : Cursor → Cursor → Prop where
  | popWsS {c q : Cursor} : c.popWs T = .ok q → Step T c q
  | popTokenS {c q : Cursor} {tok : List Char} :
      c.popToken T = .ok (some (tok, q)) → Step T c q
  | expectTokS {c q : Cursor} {s : List Char} :
      c.expectTok T s = .ok (.ok q) → Step T c q
  | charScanS {c q : Cursor} {ch : Char} : charScan T c = .ok (.ok (ch, q)) → Step T c q
  | boolScanS {c q : Cursor} {b : Bool} : boolScan T c = .ok (.ok (b, q)) → Step T c q
  | strScanS {c q : Cursor} {s : List Char} : strScan T c = .ok (.ok (s, q)) → Step T c q
  | unitScanS {c q : Cursor} {u : Unit} : unitScan c = .ok (.ok (u, q)) → Step T c q
  | numScanS {α : Type} {parse : List Char → Option α} {nm : List Char} {c q : Cursor}
      {v : α} {scanFn : List Char → Option Nat}
      (hf : scanFn = scanUint ∨ scanFn = scanInt ∨ scanFn = scanFloat) :
      fromStrSliceScan T scanFn parse nm c = .ok (.ok (v, q)) → Step T c q

/-- One step of *all* the operations claim C5 lists, including raw
`slice_from(n)` with an arbitrary byte count. -/
inductive StepF (T : CharTables) : Cursor → Cursor → Prop where
  | ofStep {c q : Cursor} : Step T c q → StepF T c q
  | sliceFromS (c : Cursor) (n : Nat) : StepF T c (c.sliceFrom n)

theorem step_wf {T : CharTables} {c q : Cursor} (hs : Step T c q) (h : CursorWF c) :
    CursorWF q := by
  cases hs with
  | popWsS hp =>
    obtain ⟨_, _, _, _, _, t1, ht1⟩ := popWs_facts hp
    exact cursorWF_of_tailStr ht1
  | popTokenS hp =>
    obtain ⟨_, _, _, _, _, _, pre, suf, h1, h2⟩ := popToken_ok_some hp
    exact ⟨pre, suf, h1, h2⟩
  | expectTokS hp =>
    obtain ⟨tok, hpt, _⟩ := expectTok_ok_some hp
    obtain ⟨_, _, _, _, _, _, pre, suf, h1, h2⟩ := popToken_ok_some hpt
    exact ⟨pre, suf, h1, h2⟩
  | charScanS hp => exact charScan_ok_wf hp
  | boolScanS hp =>
    rcases boolScan_ok hp with h1 | h1 <;>
    · obtain ⟨tok, hpt, _⟩ := expectTok_ok_some h1
      obtain ⟨_, _, _, _, _, _, pre, suf, h1', h2'⟩ := popToken_ok_some hpt
      exact ⟨pre, suf, h1', h2'⟩
  | strScanS hp =>
    obtain ⟨_, _, _, _, _, _, pre, suf, h1, h2⟩ := popToken_ok_some (strScan_ok hp)
    exact ⟨pre, suf, h1, h2⟩
  | unitScanS hp =>
    unfold unitScan at hp
    simp only [Except.ok.injEq, Prod.mk.injEq] at hp
    rw [← hp.2]
    exact h
  | numScanS hf hp => exact fromStrSliceScan_ok_wf hp

theorem step_le {T : CharTables} {c q : Cursor} (hs : Step T c q)
    (h : c.offset ≤ utf8Len c.slice) : q.offset ≤ utf8Len q.slice := by
  cases hs with
  | popWsS hp =>
    obtain ⟨_, _, _, _, _, t1, ht1⟩ := popWs_facts hp
    exact cursorWF_le (cursorWF_of_tailStr ht1)
  | popTokenS hp =>
    obtain ⟨_, _, _, _, _, _, pre, suf, h1, h2⟩ := popToken_ok_some hp
    exact cursorWF_le ⟨pre, suf, h1, h2⟩
  | expectTokS hp =>
    obtain ⟨tok, hpt, _⟩ := expectTok_ok_some hp
    obtain ⟨_, _, _, _, _, _, pre, suf, h1, h2⟩ := popToken_ok_some hpt
    exact cursorWF_le ⟨pre, suf, h1, h2⟩
  | charScanS hp => exact cursorWF_le (charScan_ok_wf hp)
  | boolScanS hp =>
    rcases boolScan_ok hp with h1 | h1 <;>
    · obtain ⟨tok, hpt, _⟩ := expectTok_ok_some h1
      obtain ⟨_, _, _, _, _, _, pre, suf, h1', h2'⟩ := popToken_ok_some hpt
      exact cursorWF_le ⟨pre, suf, h1', h2'⟩
  | strScanS hp =>
    obtain ⟨_, _, _, _, _, _, pre, suf, h1, h2⟩ := popToken_ok_some (strScan_ok hp)
    exact cursorWF_le ⟨pre, suf, h1, h2⟩
  | unitScanS hp =>
    unfold unitScan at hp
    simp only [Except.ok.injEq, Prod.mk.injEq] at hp
    rw [← hp.2]
    exact h
  | numScanS hf hp => exact cursorWF_le (fromStrSliceScan_ok_wf hp)

theorem stepF_le {T : CharTables} {c q : Cursor} (hs : StepF T c q)
    (h : c.offset ≤ utf8Len c.slice) : q.offset ≤ utf8Len q.slice := by
  cases hs with
  | ofStep hstep => exact step_le hstep h
  | sliceFromS n =>
    unfold Cursor.sliceFrom
    simp only
    omega

/-- Claim C5 counterexample: from a fresh cursor over the two-byte code
point U+00E9, one `slice_from(1)` — an operation the claim lists — reaches
a cursor whose offset 1 is *not* a code-point boundary: `tail_str` panics
there.  (`0 ≤ offset ≤ len` still holds.) -/
theorem claimC5_counterexample :
    Relation.ReflTransGen (StepF stdTables)
      (Cursor.new [Char.ofNat 0xE9] .wordsAndInts .ignore .exact)
      (Cursor.sliceFrom (Cursor.new [Char.ofNat 0xE9] .wordsAndInts .ignore .exact) 1) ∧
    (Cursor.sliceFrom (Cursor.new [Char.ofNat 0xE9] .wordsAndInts .ignore .exact) 1).offset
      = 1 ∧
    Cursor.tailStr (Cursor.sliceFrom (Cursor.new [Char.ofNat 0xE9] .wordsAndInts .ignore .exact) 1)
      = none ∧
    ¬ CursorWF (Cursor.sliceFrom (Cursor.new [Char.ofNat 0xE9] .wordsAndInts .ignore .exact) 1) := by
  refine ⟨Relation.ReflTransGen.single (StepF.sliceFromS _ 1), by decide, by decide, ?_⟩
  intro hwf
  obtain ⟨pre, suf, h1, h2⟩ := hwf
  have ht : (Cursor.sliceFrom (Cursor.new [Char.ofNat 0xE9] .wordsAndInts .ignore .exact) 1).tailStr
      = some suf :=
    tailStr_eq_some.mpr ⟨pre, h1, h2.symm⟩
  rw [show (Cursor.sliceFrom (Cursor.new [Char.ofNat 0xE9] .wordsAndInts .ignore .exact) 1).tailStr
      = none from by decide] at ht
  exact Option.noConfusion ht

/-- Claim C5 (corrected): every cursor reachable from a newly constructed
cursor by `pop_ws`, `pop_token`, `expect_tok`, `slice_from` and scanner
calls keeps `0 ≤ offset ≤ byte-length(input)` (the `min` clamp in
`slice_from` guarantees it); if raw `slice_from` with an arbitrary byte
count is excluded, the offset additionally always sits on a code-point
boundary.  (Raw `slice_from` can leave the boundary — see the
counterexample.) -/
theorem claimC5_cursor_invariant (T : CharTables) (s : List Char) (tc : Tok) (sp : Wsp)
    (cs : Cs) (c' : Cursor) :
    (Relation.ReflTransGen (StepF T) (Cursor.new s tc sp cs) c' →
      c'.offset ≤ utf8Len c'.slice) ∧
    (Relation.ReflTransGen (Step T) (Cursor.new s tc sp cs) c' →
      CursorWF c' ∧ c'.offset ≤ utf8Len c'.slice) := by
  constructor
  · intro h
    induction h with
    | refl => exact Nat.zero_le _
    | tail h1 h2 ih => exact stepF_le h2 ih
  · intro h
    have hwf : CursorWF c' := by
      induction h with
      | refl => exact ⟨[], s, rfl, rfl⟩
      | tail h1 h2 ih => exact step_wf h2 ih
    exact ⟨hwf, cursorWF_le hwf⟩

/-- Claim C5 witness: a concrete one-step reachability (a `pop_ws`) from a
fresh cursor, with the invariant instantiated there. -/
theorem claimC5_witness :
    CursorWF (Cursor.new "a".data .wordsAndInts .ignore .exact) ∧
      (Cursor.new "a".data .wordsAndInts .ignore .exact).offset
        ≤ utf8Len (Cursor.new "a".data .wordsAndInts .ignore .exact).slice :=
  (claimC5_cursor_invariant stdTables "a".data .wordsAndInts .ignore .exact
      (Cursor.new "a".data .wordsAndInts .ignore .exact)).2
    (Relation.ReflTransGen.single (Step.popWsS (by decide)))

end ScanUtil
